import Mathlib

/-!
Verification of the CSP auto-hash patching engine of the
`astro-cloudflare-pages-headers` integration (`src/integration.ts`).

Strings of the JavaScript source are embedded as `List Char`; every
function is translated directly from the corresponding TypeScript
function and kept executable.
-/

set_option maxHeartbeats 1000000

namespace CfHeaders

/-- Embedded JavaScript strings. -/
abbrev Str := List Char

/-- Conversion of a Lean string literal into the embedding. -/
def strOf (s : String) : Str := s.data

/-- Single-quote character, used by CSP keyword tokens such as `'none'`. -/
def qc : Char := Char.ofNat 39

/-- CSP keyword token built by wrapping a word in single quotes. -/
def quoted (s : String) : Str := qc :: s.data ++ [qc]

/-- Characters matched by JavaScript `\s` (and trimmed by `String.trim`). -/
def jsSpace (c : Char) : Bool :=
  c == ' ' || c == '\t' || c == '\n' || c == '\r' ||
  c == Char.ofNat 0x0b || c == Char.ofNat 0x0c || c == Char.ofNat 0xa0 ||
  c == Char.ofNat 0x1680 ||
  (0x2000 ≤ c.toNat && c.toNat ≤ 0x200a) ||
  c == Char.ofNat 0x2028 || c == Char.ofNat 0x2029 ||
  c == Char.ofNat 0x202f || c == Char.ofNat 0x205f ||
  c == Char.ofNat 0x3000 || c == Char.ofNat 0xfeff

/-- JavaScript `String.prototype.trimStart`. -/
def trimLeft (s : Str) : Str := s.dropWhile jsSpace

/-- JavaScript `String.prototype.trimEnd`. -/
def trimRight (s : Str) : Str := (s.reverse.dropWhile jsSpace).reverse

/-- JavaScript `String.prototype.trim`. -/
def trim (s : Str) : Str := trimRight (trimLeft s)

/-- JavaScript `String.prototype.split` with a single-character separator:
`"a;;b".split(";")` is `["a", "", "b"]` and `"".split(";")` is `[""]`. -/
def splitOnChar (sep : Char) : Str → List Str
  | [] => [[]]
  | c :: rest =>
    match splitOnChar sep rest with
    | [] => [[c]]
    | h :: t => if c == sep then [] :: h :: t else (c :: h) :: t

/-- JavaScript `Array.prototype.join` with a separator string. -/
def joinSep (sep : Str) : List Str → Str
  | [] => []
  | [x] => x
  | x :: y :: rest => x ++ sep ++ joinSep sep (y :: rest)

/-- `splitCspSources` from the source: `value.split(/\s+/).filter(Boolean)`,
i.e. the maximal whitespace-free runs of the string. -/
def splitCspSources : Str → List Str
  | [] => []
  | [c] => if jsSpace c then [] else [[c]]
  | c :: d :: rest =>
    let tail := splitCspSources (d :: rest)
    if jsSpace c then tail
    else if jsSpace d then [c] :: splitCspSources rest
    else
      match tail with
      | [] => [[c]]
      | w :: ws => (c :: w) :: ws

/-- Token `'none'`. -/
def noneTok : Str := quoted "none"

/-- Token `'unsafe-inline'`. -/
def unsafeInlineTok : Str := quoted "unsafe-inline"

/-- Token `'unsafe-hashes'`. -/
def unsafeHashesTok : Str := quoted "unsafe-hashes"

/-- Token `'self'` (as the raw default source-list string). -/
def selfTok : Str := quoted "self"

/-- Filter applied to tokens of `existingSources` in `mergeCspSources`:
empty tokens are skipped; `'none'` is skipped when the additions contain a
non-empty token; `'unsafe-inline'` is skipped when `stripUnsafeInline`. -/
def keepExisting (hasAdd strip : Bool) (t : Str) : Bool :=
  !t.isEmpty && !(hasAdd && t == noneTok) && !(strip && t == unsafeInlineTok)

/-- Filter applied to tokens of `additionalSources` in `mergeCspSources`:
only empty tokens are skipped. -/
def keepAddition (t : Str) : Bool := !t.isEmpty

/-- One pass of the `mergeCspSources` loops: tokens failing `keep` or
already pushed are skipped, the rest are appended in order.  In the source
the `seen` set always holds exactly the tokens already pushed to `merged`
(lines 160-171 update both together), so membership in the accumulator is
the same test. -/
def dedupAppend (keep : Str → Bool) : List Str → List Str → List Str
  | acc, [] => acc
  | acc, t :: ts =>
    if keep t = true ∧ t ∉ acc then dedupAppend keep (acc ++ [t]) ts
    else dedupAppend keep acc ts

/-- JavaScript `additionalSources.some(Boolean)`. -/
def hasNonEmptyTok (ts : List Str) : Bool := ts.any (fun t => !t.isEmpty)

/-- Token list produced by `mergeCspSources` before joining: the existing
sources filtered and deduplicated, then the additions appended with the
same dedup rule. -/
def mergeCspList (existing additions : List Str) (strip : Bool) : List Str :=
  dedupAppend keepAddition
    (dedupAppend (keepExisting (hasNonEmptyTok additions) strip) [] existing)
    additions

/-- `mergeCspSources` from the source (`merged.join(" ").trim()`). -/
def mergeCspSources (existing additions : List Str) (strip : Bool) : Str :=
  trim (joinSep (strOf " ") (mergeCspList existing additions strip))

/-! ### Basic lemmas about the string primitives -/

@[simp] theorem joinSep_nil (sep : Str) : joinSep sep [] = [] := rfl

@[simp] theorem joinSep_single (sep : Str) (x : Str) : joinSep sep [x] = x := rfl

@[simp] theorem joinSep_cons₂ (sep x y : Str) (rest : List Str) :
    joinSep sep (x :: y :: rest) = x ++ sep ++ joinSep sep (y :: rest) := rfl

theorem dropWhile_all_false {p : Char → Bool} {l : Str}
    (h : ∀ c ∈ l, p c = false) : l.dropWhile p = l := by
  cases l with
  | nil => rfl
  | cons c rest => exact List.dropWhile_cons_of_neg (by simp [h c (by simp)])

theorem head_false_of_dropWhile_eq {p : Char → Bool} {c : Char} {l : Str}
    (h : (c :: l).dropWhile p = c :: l) : p c = false := by
  by_cases hc : p c = true
  · rw [List.dropWhile_cons_of_pos hc] at h
    have hlen := congrArg List.length h
    have hsub : List.Sublist (l.dropWhile p) l := List.dropWhile_sublist p
    have hle := hsub.length_le
    simp at hlen
    omega
  · simpa using hc

theorem trimLeft_cons_of_false {c : Char} (h : jsSpace c = false) (s : Str) :
    trimLeft (c :: s) = c :: s := by
  simp [trimLeft, List.dropWhile, h]

theorem trimRight_eq_self_of_all {s : Str}
    (h : ∀ c ∈ s, jsSpace c = false) : trimRight s = s := by
  unfold trimRight
  rw [dropWhile_all_false (fun c hc => h c (by simpa using hc))]
  simp

theorem trimLeft_eq_self_of_all {s : Str}
    (h : ∀ c ∈ s, jsSpace c = false) : trimLeft s = s :=
  dropWhile_all_false h

theorem trimRight_append {xs ys : Str} (hys : trimRight ys = ys) (hne : ys ≠ []) :
    trimRight (xs ++ ys) = xs ++ ys := by
  have h1 : ys.reverse.dropWhile jsSpace = ys.reverse := by
    have := congrArg List.reverse hys
    simpa [trimRight] using this
  obtain ⟨d, ds, hds⟩ : ∃ d ds, ys.reverse = d :: ds := by
    cases hys' : ys.reverse with
    | nil => exact absurd (by simpa using congrArg List.reverse hys') hne
    | cons d ds => exact ⟨d, ds, rfl⟩
  have hd : jsSpace d = false := head_false_of_dropWhile_eq (hds ▸ h1)
  unfold trimRight
  rw [List.reverse_append, hds, List.cons_append,
    List.dropWhile_cons_of_neg (by simp [hd]), ← List.cons_append, ← hds,
    ← List.reverse_append]
  simp

/-- Joining a non-empty list of tokens starts with the first token. -/
theorem joinSep_cons_eq_append (sep x : Str) (rest : List Str) :
    ∃ z, joinSep sep (x :: rest) = x ++ z := by
  cases rest with
  | nil => exact ⟨[], by simp⟩
  | cons y r => exact ⟨sep ++ joinSep sep (y :: r), by simp⟩

theorem joinSep_ne_nil {sep x : Str} (hx : x ≠ []) (rest : List Str) :
    joinSep sep (x :: rest) ≠ [] := by
  obtain ⟨z, hz⟩ := joinSep_cons_eq_append sep x rest
  rw [hz]
  simp [hx]

/-- Well-formed CSP token: non-empty and whitespace-free. -/
def wfTok (t : Str) : Prop := t ≠ [] ∧ ∀ c ∈ t, jsSpace c = false

theorem trimRight_joinSp {L : List Str} (h : ∀ t ∈ L, wfTok t) :
    trimRight (joinSep (strOf " ") L) = joinSep (strOf " ") L := by
  induction L with
  | nil => rfl
  | cons t rest ih =>
    cases rest with
    | nil =>
      simpa using trimRight_eq_self_of_all (h t (by simp)).2
    | cons y r =>
      rw [joinSep_cons₂]
      have hy : y ≠ [] := (h y (by simp)).1
      have hrest : trimRight (joinSep (strOf " ") (y :: r)) = joinSep (strOf " ") (y :: r) :=
        ih fun t ht => h t (List.mem_cons_of_mem _ ht)
      exact trimRight_append hrest (joinSep_ne_nil hy r)

theorem trim_joinSp {L : List Str} (h : ∀ t ∈ L, wfTok t) :
    trim (joinSep (strOf " ") L) = joinSep (strOf " ") L := by
  unfold trim
  have hl : trimLeft (joinSep (strOf " ") L) = joinSep (strOf " ") L := by
    cases L with
    | nil => rfl
    | cons t rest =>
      obtain ⟨z, hz⟩ := joinSep_cons_eq_append (strOf " ") t rest
      obtain ⟨ht1, ht2⟩ := h t (by simp)
      obtain ⟨c, cs, hc⟩ : ∃ c cs, t = c :: cs := by
        cases t with
        | nil => exact absurd rfl ht1
        | cons c cs => exact ⟨c, cs, rfl⟩
      rw [hz, hc, List.cons_append]
      exact trimLeft_cons_of_false (ht2 c (by simp [hc])) _
  rw [hl, trimRight_joinSp h]

/-! ### `splitCspSources` lemmas -/

theorem jsSpace_space : jsSpace ' ' = true := by decide

theorem splitCspSources_token {t : Str} (hw : ∀ c ∈ t, jsSpace c = false)
    (hne : t ≠ []) : splitCspSources t = [t] := by
  induction t with
  | nil => exact absurd rfl hne
  | cons c rest ih =>
    have hc : jsSpace c = false := hw c (by simp)
    cases rest with
    | nil => simp [splitCspSources, hc]
    | cons d r =>
      have hdf : jsSpace d = false := hw d (by simp)
      have hd : splitCspSources (d :: r) = [d :: r] :=
        ih (fun x hx => hw x (List.mem_cons_of_mem _ hx)) (by simp)
      simp [splitCspSources, hd, hc, hdf]

theorem splitCspSources_token_append {t s : Str}
    (hw : ∀ c ∈ t, jsSpace c = false) (hne : t ≠ []) :
    splitCspSources (t ++ ' ' :: s) = t :: splitCspSources s := by
  induction t with
  | nil => exact absurd rfl hne
  | cons c rest ih =>
    have hc : jsSpace c = false := hw c (by simp)
    cases rest with
    | nil =>
      simp only [List.cons_append, List.nil_append]
      simp [splitCspSources, hc, jsSpace_space]
    | cons d r =>
      have hdf : jsSpace d = false := hw d (by simp)
      have hd : splitCspSources (d :: r ++ ' ' :: s) = (d :: r) :: splitCspSources s :=
        ih (fun x hx => hw x (List.mem_cons_of_mem _ hx)) (by simp)
      simp only [List.cons_append] at hd ⊢
      simp [splitCspSources, hd, hc, hdf]

theorem splitCspSources_joinSp {L : List Str} (h : ∀ t ∈ L, wfTok t) :
    splitCspSources (joinSep (strOf " ") L) = L := by
  induction L with
  | nil => rfl
  | cons t rest ih =>
    cases rest with
    | nil =>
      obtain ⟨h1, h2⟩ := h t (by simp)
      simpa using splitCspSources_token h2 h1
    | cons y r =>
      obtain ⟨h1, h2⟩ := h t (by simp)
      have hj : joinSep (strOf " ") (t :: y :: r) = t ++ ' ' :: joinSep (strOf " ") (y :: r) := by
        simp [strOf]
      rw [hj, splitCspSources_token_append h2 h1]
      rw [ih fun x hx => h x (List.mem_cons_of_mem _ hx)]

/-- Induction principle following the recursion pattern of `splitCspSources`. -/
theorem twoStepInduction {P : Str → Prop} (h0 : P []) (h1 : ∀ c, P [c])
    (h2 : ∀ c d rest, P (d :: rest) → P rest → P (c :: d :: rest)) :
    ∀ s, P s := by
  have key : ∀ n s, List.length s ≤ n → P s := by
    intro n
    induction n with
    | zero =>
      intro s hs
      cases s with
      | nil => exact h0
      | cons c rest => simp at hs
    | succ n ih =>
      intro s hs
      match s with
      | [] => exact h0
      | [c] => exact h1 c
      | c :: d :: rest =>
        refine h2 c d rest (ih _ ?_) (ih _ ?_) <;> simp at hs ⊢ <;> omega
  exact fun s => key s.length s le_rfl

theorem mem_splitCspSources_wf : ∀ s t, t ∈ splitCspSources s → wfTok t := by
  intro s
  induction s using twoStepInduction with
  | h0 => intro t ht; simp [splitCspSources] at ht
  | h1 c =>
    intro t ht
    by_cases hc : jsSpace c
    · simp [splitCspSources, hc] at ht
    · simp [splitCspSources, hc] at ht
      subst ht
      refine ⟨by simp, ?_⟩
      intro x hx
      simp at hx
      subst hx
      simpa using hc
  | h2 c d rest ih1 ih2 =>
    intro t ht
    by_cases hc : jsSpace c
    · rw [show splitCspSources (c :: d :: rest) = splitCspSources (d :: rest) by
        simp [splitCspSources, hc]] at ht
      exact ih1 t ht
    · by_cases hd : jsSpace d
      · rw [show splitCspSources (c :: d :: rest) = [c] :: splitCspSources rest by
          simp [splitCspSources, hc, hd]] at ht
        rcases List.mem_cons.1 ht with h | h
        · subst h
          refine ⟨by simp, ?_⟩
          intro x hx
          simp at hx
          subst hx
          simpa using hc
        · exact ih2 t h
      · cases hsp : splitCspSources (d :: rest) with
        | nil =>
          rw [show splitCspSources (c :: d :: rest) = [[c]] by
            simp [splitCspSources, hc, hd, hsp]] at ht
          simp at ht
          subst ht
          refine ⟨by simp, ?_⟩
          intro x hx
          simp at hx
          subst hx
          simpa using hc
        | cons w ws =>
          rw [show splitCspSources (c :: d :: rest) = (c :: w) :: ws by
            simp [splitCspSources, hc, hd, hsp]] at ht
          rcases List.mem_cons.1 ht with h | h
          · subst h
            have hw : wfTok w := ih1 w (by simp [hsp])
            refine ⟨by simp, ?_⟩
            intro x hx
            rcases List.mem_cons.1 hx with h | h
            · subst h; simpa using hc
            · exact hw.2 x h
          · exact ih1 t (by simp [hsp, h])

/-! ### `dedupAppend` and `mergeCspList` lemmas -/

theorem mem_dedupAppend {keep : Str → Bool} {x : Str} :
    ∀ {acc ts : List Str},
      (x ∈ dedupAppend keep acc ts ↔ x ∈ acc ∨ (x ∈ ts ∧ keep x = true)) := by
  intro acc ts
  induction ts generalizing acc with
  | nil => simp [dedupAppend]
  | cons t ts ih =>
    by_cases h : keep t = true ∧ t ∉ acc
    · rw [dedupAppend, if_pos h, ih]
      constructor
      · rintro (hx | ⟨hx, hk⟩)
        · rcases List.mem_append.1 hx with hx | hx
          · exact Or.inl hx
          · have hxt : x = t := by simpa using hx
            exact Or.inr ⟨by simp [hxt], by rw [hxt]; exact h.1⟩
        · exact Or.inr ⟨List.mem_cons_of_mem _ hx, hk⟩
      · rintro (hx | ⟨hx, hk⟩)
        · exact Or.inl (List.mem_append.2 (Or.inl hx))
        · rcases List.mem_cons.1 hx with rfl | hx
          · exact Or.inl (List.mem_append.2 (Or.inr (by simp)))
          · exact Or.inr ⟨hx, hk⟩
    · rw [dedupAppend, if_neg h]
      rw [ih]
      constructor
      · rintro (hx | ⟨hx, hk⟩)
        · exact Or.inl hx
        · exact Or.inr ⟨List.mem_cons_of_mem _ hx, hk⟩
      · rintro (hx | ⟨hx, hk⟩)
        · exact Or.inl hx
        · rcases List.mem_cons.1 hx with rfl | hx
          · rcases not_and_or.1 h with h | h
            · exact absurd hk h
            · exact Or.inl (not_not.1 h)
          · exact Or.inr ⟨hx, hk⟩

theorem nodup_dedupAppend {keep : Str → Bool} :
    ∀ {ts acc : List Str}, acc.Nodup → (dedupAppend keep acc ts).Nodup := by
  intro ts
  induction ts with
  | nil => intro acc h; simpa [dedupAppend] using h
  | cons t ts ih =>
    intro acc h
    by_cases hk : keep t = true ∧ t ∉ acc
    · rw [dedupAppend, if_pos hk]
      exact ih (by simp [List.nodup_append, h, hk.2])
    · rw [dedupAppend, if_neg hk]
      exact ih h

theorem dedupAppend_fix {keep : Str → Bool} :
    ∀ {ts acc : List Str}, (∀ t ∈ ts, keep t = true → t ∈ acc) →
      dedupAppend keep acc ts = acc := by
  intro ts
  induction ts with
  | nil => intro acc _; rfl
  | cons t ts ih =>
    intro acc h
    have : ¬(keep t = true ∧ t ∉ acc) := by
      rintro ⟨h1, h2⟩
      exact h2 (h t (by simp) h1)
    rw [dedupAppend, if_neg this]
    exact ih fun x hx => h x (List.mem_cons_of_mem _ hx)

theorem dedupAppend_all {keep : Str → Bool} :
    ∀ {ts acc : List Str}, (acc ++ ts).Nodup → (∀ t ∈ ts, keep t = true) →
      dedupAppend keep acc ts = acc ++ ts := by
  intro ts
  induction ts with
  | nil => intro acc _ _; simp [dedupAppend]
  | cons t ts ih =>
    intro acc hnd hk
    have htacc : t ∉ acc := by
      have h' := hnd
      rw [List.nodup_append] at h'
      obtain ⟨-, -, hdis⟩ := h'
      exact fun hmem => hdis hmem (List.mem_cons_self t ts)
    rw [dedupAppend, if_pos ⟨hk t (by simp), htacc⟩]
    have : (acc ++ [t]) ++ ts = acc ++ t :: ts := by simp
    rw [ih (by rw [this]; exact hnd) fun x hx => hk x (List.mem_cons_of_mem _ hx), this]

theorem mem_mergeCspList {E A : List Str} {s : Bool} {x : Str} :
    x ∈ mergeCspList E A s ↔
      (x ∈ E ∧ keepExisting (hasNonEmptyTok A) s x = true) ∨
      (x ∈ A ∧ keepAddition x = true) := by
  unfold mergeCspList
  rw [mem_dedupAppend, mem_dedupAppend]
  simp

theorem nodup_mergeCspList (E A : List Str) (s : Bool) :
    (mergeCspList E A s).Nodup :=
  nodup_dedupAppend (nodup_dedupAppend (by simp))

theorem wf_mem_mergeCspList {E A : List Str} {s : Bool}
    (hE : ∀ t ∈ E, ∀ c ∈ t, jsSpace c = false)
    (hA : ∀ t ∈ A, ∀ c ∈ t, jsSpace c = false) :
    ∀ t ∈ mergeCspList E A s, wfTok t := by
  intro t ht
  rcases mem_mergeCspList.1 ht with ⟨hm, hk⟩ | ⟨hm, hk⟩
  · refine ⟨?_, hE t hm⟩
    intro hnil
    rw [hnil] at hk
    simp [keepExisting] at hk
  · refine ⟨?_, hA t hm⟩
    intro hnil
    rw [hnil] at hk
    simp [keepAddition] at hk

/-- Core idempotence property of the source-list merge: re-merging the same
additions into the split of a previous merge result is a no-op, provided all
tokens are whitespace-free and the additions contain neither `'none'` nor
(when stripping) `'unsafe-inline'`. -/
theorem mergeCspSources_split_idem (E A : List Str) (s : Bool)
    (hE : ∀ t ∈ E, ∀ c ∈ t, jsSpace c = false)
    (hA : ∀ t ∈ A, ∀ c ∈ t, jsSpace c = false)
    (hnone : noneTok ∉ A) (hui : s = true → unsafeInlineTok ∉ A) :
    mergeCspSources (splitCspSources (mergeCspSources E A s)) A s =
      mergeCspSources E A s := by
  have hwf : ∀ t ∈ mergeCspList E A s, wfTok t := wf_mem_mergeCspList hE hA
  have hjoin : mergeCspSources E A s = joinSep (strOf " ") (mergeCspList E A s) := by
    unfold mergeCspSources
    exact trim_joinSp hwf
  have hsplit : splitCspSources (mergeCspSources E A s) = mergeCspList E A s := by
    rw [hjoin]
    exact splitCspSources_joinSp hwf
  have hkeep : ∀ t ∈ mergeCspList E A s,
      keepExisting (hasNonEmptyTok A) s t = true := by
    intro t ht
    obtain ⟨hne, _⟩ := hwf t ht
    have hmem := mem_mergeCspList.1 ht
    unfold keepExisting
    have h1 : ¬(hasNonEmptyTok A = true ∧ t = noneTok) := by
      rintro ⟨_, rfl⟩
      rcases hmem with ⟨_, hk⟩ | ⟨hmA, _⟩
      · simp_all [keepExisting]
      · exact hnone hmA
    have h2 : ¬(s = true ∧ t = unsafeInlineTok) := by
      rintro ⟨hs, rfl⟩
      rcases hmem with ⟨_, hk⟩ | ⟨hmA, _⟩
      · simp_all [keepExisting]
      · exact hui hs hmA
    simp only [Bool.and_eq_true, Bool.not_eq_true']
    rcases Bool.eq_false_or_eq_true (hasNonEmptyTok A) with ha | ha <;>
      rcases Bool.eq_false_or_eq_true s with hs | hs <;>
      simp_all [Bool.not_eq_true]
  have hfix : mergeCspList (mergeCspList E A s) A s = mergeCspList E A s := by
    unfold mergeCspList
    have hinner :
        dedupAppend (keepExisting (hasNonEmptyTok A) s) []
          (dedupAppend keepAddition
            (dedupAppend (keepExisting (hasNonEmptyTok A) s) [] E) A) =
          dedupAppend keepAddition
            (dedupAppend (keepExisting (hasNonEmptyTok A) s) [] E) A := by
      have := @dedupAppend_all (keepExisting (hasNonEmptyTok A) s)
        (mergeCspList E A s) []
        (by simpa using nodup_mergeCspList E A s) hkeep
      simpa [mergeCspList] using this
    rw [hinner]
    exact dedupAppend_fix fun t ht hk => by
      refine mem_mergeCspList.2 (Or.inr ⟨ht, hk⟩)
  calc mergeCspSources (splitCspSources (mergeCspSources E A s)) A s
      = mergeCspSources (mergeCspList E A s) A s := by rw [hsplit]
    _ = trim (joinSep (strOf " ") (mergeCspList (mergeCspList E A s) A s)) := rfl
    _ = trim (joinSep (strOf " ") (mergeCspList E A s)) := by rw [hfix]
    _ = mergeCspSources E A s := by rw [trim_joinSp hwf, ← hjoin]

/-! ### Claims C1, C4 and C10 about `mergeCspSources` -/

/-- C1, counterexample: idempotence fails for `stripUnsafeInline = true` when
the additions contain `'unsafe-inline'` — on A = [] and
B = [`'unsafe-inline'`, "x"], the second merge moves `'unsafe-inline'` from
the front to the back of the source list. -/
theorem merge_idem_cex :
    mergeCspSources
        (splitCspSources (mergeCspSources [] [unsafeInlineTok, strOf "x"] true))
        [unsafeInlineTok, strOf "x"] true ≠
      mergeCspSources [] [unsafeInlineTok, strOf "x"] true := by decide

/-- C1, amended: for token lists A and B of whitespace-free tokens, where B
contains neither `'none'` nor — when `stripUnsafeInline` is set —
`'unsafe-inline'`, the source-list merge is idempotent:
`Merge(split(Merge(A,B)), B) = Merge(A,B)` for every value of the flag. -/
theorem merge_idem_amended (A B : List Str) (s : Bool)
    (hA : ∀ t ∈ A, ∀ c ∈ t, jsSpace c = false)
    (hB : ∀ t ∈ B, ∀ c ∈ t, jsSpace c = false)
    (hnone : noneTok ∉ B) (hui : s = true → unsafeInlineTok ∉ B) :
    mergeCspSources (splitCspSources (mergeCspSources A B s)) B s =
      mergeCspSources A B s :=
  mergeCspSources_split_idem A B s hA hB hnone hui

/-- Witness for C1 at a concrete input. -/
theorem merge_idem_amended_witness :
    mergeCspSources
        (splitCspSources (mergeCspSources [selfTok] [quoted "sha256-abc"] true))
        [quoted "sha256-abc"] true =
      mergeCspSources [selfTok] [quoted "sha256-abc"] true :=
  merge_idem_amended [selfTok] [quoted "sha256-abc"] true (by decide) (by decide)
    (by decide) (fun _ => by decide)

/-- C4: `Merge(A,B)` drops `'none'` coming from A exactly when B contains a
non-empty token: when it does, the merged token list contains `'none'` iff B
itself supplies it; when B has no non-empty token, `'none'` is kept iff it
was in A. -/
theorem merge_none_policy (A B : List Str) (s : Bool) :
    if hasNonEmptyTok B = true
    then (noneTok ∈ mergeCspList A B s ↔ noneTok ∈ B)
    else (noneTok ∈ mergeCspList A B s ↔ noneTok ∈ A) := by
  by_cases hB : hasNonEmptyTok B = true
  · rw [if_pos hB]
    constructor
    · intro h
      rcases mem_mergeCspList.1 h with ⟨_, hk⟩ | ⟨hm, _⟩
      · rw [hB] at hk
        simp [keepExisting] at hk
      · exact hm
    · intro h
      exact mem_mergeCspList.2 (Or.inr ⟨h, by decide⟩)
  · rw [if_neg hB]
    have hBf : hasNonEmptyTok B = false := by simpa using hB
    have hBnone : noneTok ∉ B := by
      intro hm
      apply hB
      exact List.any_eq_true.2 ⟨noneTok, hm, by decide⟩
    constructor
    · intro h
      rcases mem_mergeCspList.1 h with ⟨hm, _⟩ | ⟨hm, _⟩
      · exact hm
      · exact absurd hm hBnone
    · intro h
      apply mem_mergeCspList.2
      refine Or.inl ⟨h, ?_⟩
      rw [hBf]
      cases s <;> decide

/-- C10: with `stripUnsafeInline = true`, `'unsafe-inline'` is removed only
while scanning the existing list: it appears in the merged token list exactly
when the additions list contains it (in which case it is appended), whatever
the existing list holds. -/
theorem merge_strip_only_scans_existing (E A : List Str) :
    unsafeInlineTok ∈ mergeCspList E A true ↔ unsafeInlineTok ∈ A := by
  constructor
  · intro h
    rcases mem_mergeCspList.1 h with ⟨_, hk⟩ | ⟨hm, _⟩
    · simp [keepExisting] at hk
    · exact hm
  · intro h
    exact mem_mergeCspList.2 (Or.inr ⟨h, by decide⟩)

/-! ### Route attribution mapper (claim C7)

`mapHtmlFileToRoute` takes the build-relative, slash-normalized path of the
HTML file; computing that relative path (`path.relative` plus separator
normalization) is a platform primitive outside the repository. -/

/-- `mapHtmlFileToRoute` from the source, over the relative path. -/
def mapHtmlFileToRoute (relativePath : Str) : Str :=
  if relativePath = strOf "index.html" then strOf "/"
  else if (strOf "/index.html").isSuffixOf relativePath then
    strOf "/" ++ relativePath.take (relativePath.length - (strOf "/index.html").length)
      ++ strOf "/"
  else if (strOf ".html").isSuffixOf relativePath then
    strOf "/" ++ relativePath.take (relativePath.length - (strOf ".html").length)
  else strOf "/" ++ relativePath

/-- C7: the route mapper sends `index.html` to `/`, a file `dir/index.html`
to `/dir/` (trailing slash), any other `stem.html` to `/stem`, and any
non-`.html` relative path `rel` to `/rel` verbatim. -/
theorem mapHtmlFileToRoute_spec :
    (mapHtmlFileToRoute (strOf "index.html") = strOf "/")
    ∧ (∀ dir : Str, mapHtmlFileToRoute (dir ++ strOf "/index.html") =
        strOf "/" ++ dir ++ strOf "/")
    ∧ (∀ stem : Str,
        stem ++ strOf ".html" ≠ strOf "index.html" →
        (strOf "/index.html").isSuffixOf (stem ++ strOf ".html") = false →
        mapHtmlFileToRoute (stem ++ strOf ".html") = strOf "/" ++ stem)
    ∧ (∀ rel : Str, (strOf ".html").isSuffixOf rel = false →
        mapHtmlFileToRoute rel = strOf "/" ++ rel) := by
  refine ⟨by decide, ?_, ?_, ?_⟩
  · intro dir
    have h1 : dir ++ strOf "/index.html" ≠ strOf "index.html" := by
      intro h
      have hlen := congrArg List.length h
      rw [List.length_append] at hlen
      have e1 : (strOf "/index.html").length = 11 := by decide
      have e2 : (strOf "index.html").length = 10 := by decide
      omega
    have h2 : (strOf "/index.html").isSuffixOf (dir ++ strOf "/index.html") = true := by
      rw [List.isSuffixOf_iff_suffix]
      exact List.suffix_append _ _
    rw [mapHtmlFileToRoute, if_neg h1, if_pos h2]
    rw [List.length_append, Nat.add_sub_cancel, List.take_left]
  · intro stem hne hsuf
    have h3 : (strOf ".html").isSuffixOf (stem ++ strOf ".html") = true := by
      rw [List.isSuffixOf_iff_suffix]
      exact List.suffix_append _ _
    rw [mapHtmlFileToRoute, if_neg hne, if_neg (by simp [hsuf]), if_pos h3]
    rw [List.length_append, Nat.add_sub_cancel, List.take_left]
  · intro rel hsuf
    have h1 : rel ≠ strOf "index.html" := by
      rintro rfl
      rw [show (strOf ".html").isSuffixOf (strOf "index.html") = true from by decide]
        at hsuf
      exact absurd hsuf (by simp)
    have h2 : (strOf "/index.html").isSuffixOf rel = false := by
      by_contra hb
      have hb' : (strOf "/index.html").isSuffixOf rel = true := by
        simpa using hb
      rw [List.isSuffixOf_iff_suffix] at hb'
      have : (strOf ".html") <:+ rel :=
        List.IsSuffix.trans (by decide) hb'
      rw [← List.isSuffixOf_iff_suffix] at this
      rw [this] at hsuf
      exact absurd hsuf (by simp)
    rw [mapHtmlFileToRoute, if_neg h1, if_neg (by simp [h2]), if_neg (by simp [hsuf])]

/-- Witness for C7 at concrete inputs: `blog/index.html`, `about.html` and a
non-HTML path. -/
theorem mapHtmlFileToRoute_spec_witness :
    mapHtmlFileToRoute (strOf "blog/index.html") = strOf "/blog/" ∧
    mapHtmlFileToRoute (strOf "about.html") = strOf "/about" ∧
    mapHtmlFileToRoute (strOf "robots.txt") = strOf "/robots.txt" := by
  refine ⟨?_, ?_, ?_⟩
  · have h := mapHtmlFileToRoute_spec.2.1 (strOf "blog")
    simpa using h
  · have h := mapHtmlFileToRoute_spec.2.2.1 (strOf "about") (by decide) (by decide)
    simpa using h
  · have h := mapHtmlFileToRoute_spec.2.2.2 (strOf "robots.txt") (by decide)
    simpa using h

/-! ### CSP directive codec -/

/-- Entry list of a JavaScript `Map<string, string>`, in insertion order. -/
abbrev Entries := List (Str × Str)

/-- JavaScript `Map.prototype.get` (first and only entry with that key). -/
def mapGet (m : Entries) (k : Str) : Option Str :=
  match m with
  | [] => none
  | (a, b) :: r => if a = k then some b else mapGet r k

/-- JavaScript `Map.prototype.set`: overwrite in place, else append. -/
def mapSet (m : Entries) (k v : Str) : Entries :=
  match m with
  | [] => [(k, v)]
  | (a, b) :: r => if a = k then (a, v) :: r else (a, b) :: mapSet r k v

/-- `ParsedCspDirectives` from the source: the directive map and the
insertion-order list of directive names. -/
structure ParsedCspDirectives where
  directives : Entries
  order : List Str
deriving DecidableEq

/-- Splitting of a directive chunk at the first `' '` character, mirroring
`chunk.indexOf(" ")`; `none` when there is no space. -/
def breakAtFirstSpace : Str → Str × Option Str
  | [] => ([], none)
  | c :: rest =>
    if c = ' ' then ([], some rest)
    else
      let nr := breakAtFirstSpace rest
      (c :: nr.1, nr.2)

/-- Name/value extraction for one chunk: the name is everything before the
first space (the whole chunk when there is none), the value the trimmed
remainder. -/
def parseChunk (chunk : Str) : Str × Str :=
  match breakAtFirstSpace chunk with
  | (n, none) => (n, [])
  | (n, some r) => (n, trim r)

/-- Chunks of a CSP value: split on `;`, trim, drop empties. -/
def chunksOf (csp : Str) : List Str :=
  ((splitOnChar ';' csp).map trim).filter (fun c => !c.isEmpty)

/-- One step of `parseCspDirectives`: record the first occurrence of a name
in the order list, and set (insert or overwrite) the directive value. -/
def insertChunk (p : ParsedCspDirectives) (chunk : Str) : ParsedCspDirectives :=
  let nv := parseChunk chunk
  { directives := mapSet p.directives nv.1 nv.2
    order := if (mapGet p.directives nv.1).isSome then p.order
             else p.order ++ [nv.1] }

/-- `parseCspDirectives` from the source. -/
def parseCspDirectives (csp : Str) : ParsedCspDirectives :=
  (chunksOf csp).foldl insertChunk ⟨[], []⟩

/-- Rendered directive: `"name value"`, or bare `"name"` for empty values. -/
def renderEntry (nv : Str × Str) : Str :=
  if nv.2.isEmpty then nv.1 else nv.1 ++ strOf " " ++ nv.2

/-- `serializeCspDirectives` from the source: render the ordered names first
(collecting them as seen), then any remaining map entries, joined by `"; "`. -/
def serializeCspDirectives (p : ParsedCspDirectives) : Str :=
  let step := p.order.foldl
    (fun (acc : List Str × List Str) n =>
      match mapGet p.directives n with
      | none => acc
      | some v => (acc.1 ++ [renderEntry (n, v)], acc.2 ++ [n]))
    ([], [])
  let rendered := p.directives.foldl
    (fun acc nv => if nv.1 ∈ step.2 then acc else acc ++ [renderEntry nv])
    step.1
  joinSep (strOf "; ") rendered

/-- JavaScript `rawCspValue.trim().replace(/;+\s*$/, "")` (applied to an
already-trimmed string in `patchCspValue`): remove the maximal trailing run
of `;`s together with any whitespace following it. -/
def stripTrailSemiWs (s : Str) : Str :=
  let r := s.reverse.dropWhile jsSpace
  if r.head? = some ';' then (r.dropWhile (fun c => c == ';')).reverse else s

/-! ### Trim infrastructure -/

theorem dropWhile_idem {p : Char → Bool} {l : Str} :
    (l.dropWhile p).dropWhile p = l.dropWhile p := by
  induction l with
  | nil => rfl
  | cons a l ih =>
    by_cases h : p a
    · simp [List.dropWhile_cons, h, ih]
    · simp [List.dropWhile_cons, h]

theorem trimLeft_suffix (s : Str) : trimLeft s <:+ s := List.dropWhile_suffix _

theorem trimRight_isPre (s : Str) : trimRight s <+: s := by
  have h : s.reverse.dropWhile jsSpace <:+ s.reverse := List.dropWhile_suffix _
  have := List.reverse_prefix.2 h
  simpa [trimRight] using this

theorem mem_of_mem_trimLeft {x : Char} {s : Str} (h : x ∈ trimLeft s) : x ∈ s :=
  (trimLeft_suffix s).subset h

theorem mem_of_mem_trimRight {x : Char} {s : Str} (h : x ∈ trimRight s) : x ∈ s :=
  (trimRight_isPre s).subset h

theorem mem_of_mem_trim {x : Char} {s : Str} (h : x ∈ trim s) : x ∈ s :=
  mem_of_mem_trimLeft (mem_of_mem_trimRight h)

theorem trimLeft_idem (s : Str) : trimLeft (trimLeft s) = trimLeft s :=
  dropWhile_idem

theorem trimRight_idem (s : Str) : trimRight (trimRight s) = trimRight s := by
  unfold trimRight
  rw [List.reverse_reverse, dropWhile_idem]

theorem trimLeft_trimRight_of_fix {u : Str} (h : trimLeft u = u) :
    trimLeft (trimRight u) = trimRight u := by
  rcases hu : trimRight u with _ | ⟨c, t⟩
  · rfl
  · obtain ⟨w, hw⟩ := trimRight_isPre u
    rw [hu] at hw
    have h3 : trimLeft (c :: (t ++ w)) = c :: (t ++ w) := by
      rw [show c :: (t ++ w) = (c :: t) ++ w from by simp, hw]
      exact h
    have hc : jsSpace c = false := head_false_of_dropWhile_eq h3
    exact trimLeft_cons_of_false hc t

theorem trim_idem (s : Str) : trim (trim s) = trim s := by
  unfold trim
  rw [trimLeft_trimRight_of_fix (trimLeft_idem s), trimRight_idem]

theorem trim_eq_self_parts {s : Str} (h : trim s = s) :
    trimLeft s = s ∧ trimRight s = s := by
  have h1 : trimLeft s = s := by
    have hsuf := trimLeft_suffix s
    refine hsuf.eq_of_length ?_
    have l1 : (trim s).length ≤ (trimLeft s).length :=
      (trimRight_isPre (trimLeft s)).length_le
    have l2 : (trimLeft s).length ≤ s.length := hsuf.length_le
    rw [h] at l1
    omega
  refine ⟨h1, ?_⟩
  have : trim s = trimRight s := by rw [trim, h1]
  rw [← this, h]

theorem trimLeft_cons_space (c : Char) (s : Str) (h : jsSpace c = true) :
    trimLeft (c :: s) = trimLeft s := by
  simp [trimLeft, List.dropWhile_cons, h]

theorem trim_cons_space (c : Char) (s : Str) (h : jsSpace c = true) :
    trim (c :: s) = trim s := by
  rw [trim, trimLeft_cons_space c s h, trim]

theorem last_false_of_trimRight_fix {s : Str} {d : Char} {ds : Str}
    (h : trimRight s = s) (hrev : s.reverse = d :: ds) : jsSpace d = false := by
  have h' : s.reverse.dropWhile jsSpace = s.reverse := by
    have := congrArg List.reverse h
    simpa [trimRight] using this
  rw [hrev] at h'
  exact head_false_of_dropWhile_eq h'

theorem trim_ne_nil_of_last {s : Str} {d : Char} {ds : Str}
    (hrev : s.reverse = d :: ds) (hd : jsSpace d = false) : trim s ≠ [] := by
  have hne : trimLeft s ≠ [] := by
    intro hnil
    have hall : ∀ x ∈ s, jsSpace x = true := List.dropWhile_eq_nil_iff.1 hnil
    have hdm : d ∈ s := by
      have : d ∈ s.reverse := by simp [hrev]
      simpa using this
    rw [hall d hdm] at hd
    exact absurd hd (by simp)
  obtain ⟨w, hw⟩ : ∃ w, (trimLeft s).reverse ++ w = s.reverse := by
    have := List.reverse_prefix.2 (trimLeft_suffix s)
    exact this
  obtain ⟨e, es, hes⟩ : ∃ e es, (trimLeft s).reverse = e :: es := by
    rcases h : (trimLeft s).reverse with _ | ⟨e, es⟩
    · exact absurd (by simpa using congrArg List.reverse h) hne
    · exact ⟨e, es, rfl⟩
  have hed : e = d := by
    rw [hes, hrev] at hw
    have h' : e :: (es ++ w) = d :: ds := by simpa using hw
    injection h' with h1 _
  have he : jsSpace e = false := hed ▸ hd
  intro htr
  have : trimRight (trimLeft s) = [] := htr
  rw [trimRight, hes, List.dropWhile_cons_of_neg (by simp [he])] at this
  simp [← hes] at this
  exact hne (by simpa using congrArg List.reverse this)

/-! ### Chunk and entry well-formedness -/

/-- Shape of every chunk produced by `chunksOf`. -/
def wfChunk (c : Str) : Prop := c ≠ [] ∧ trim c = c ∧ ';' ∉ c

/-- Shape of every entry of a parsed (and patched) directive map. -/
def wfEntry (nv : Str × Str) : Prop :=
  nv.1 ≠ [] ∧ ' ' ∉ nv.1 ∧ ';' ∉ nv.1 ∧ ';' ∉ nv.2 ∧
  trimLeft nv.1 = nv.1 ∧ trim nv.2 = nv.2 ∧ (nv.2 = [] → trimRight nv.1 = nv.1)

theorem breakAtFirstSpace_spec (c : Str) :
    (breakAtFirstSpace c = (c, none) ∧ ' ' ∉ c) ∨
    (∃ pre post, c = pre ++ ' ' :: post ∧ ' ' ∉ pre ∧
      breakAtFirstSpace c = (pre, some post)) := by
  induction c with
  | nil => exact Or.inl ⟨rfl, by simp⟩
  | cons a rest ih =>
    by_cases ha : a = ' '
    · subst ha
      exact Or.inr ⟨[], rest, by simp, by simp, by simp [breakAtFirstSpace]⟩
    · rcases ih with ⟨h1, h2⟩ | ⟨pre, post, heq, hpre, hbr⟩
      · refine Or.inl ⟨?_, ?_⟩
        · simp [breakAtFirstSpace, ha, h1]
        · simp [ha]
          exact ⟨fun h => ha h.symm, h2⟩
      · refine Or.inr ⟨a :: pre, post, by simp [heq], ?_, ?_⟩
        · simp [ha]
          exact ⟨fun h => ha h.symm, hpre⟩
        · simp [breakAtFirstSpace, ha, hbr]

theorem breakAtFirstSpace_no_space {c : Str} (h : ' ' ∉ c) :
    breakAtFirstSpace c = (c, none) := by
  rcases breakAtFirstSpace_spec c with ⟨h1, _⟩ | ⟨pre, post, heq, _, _⟩
  · exact h1
  · exact absurd (by simp [heq]) h

theorem breakAtFirstSpace_append {n : Str} (h : ' ' ∉ n) (v : Str) :
    breakAtFirstSpace (n ++ ' ' :: v) = (n, some v) := by
  induction n with
  | nil => simp [breakAtFirstSpace]
  | cons a rest ih =>
    have ha : a ≠ ' ' := by
      intro hx
      exact h (by simp [hx])
    have hrest : ' ' ∉ rest := fun hx => h (by simp [hx])
    simp [breakAtFirstSpace, ha, ih hrest]

theorem parseChunk_wf {c : Str} (hc : wfChunk c) : wfEntry (parseChunk c) := by
  obtain ⟨hne, htrim, hsemi⟩ := hc
  obtain ⟨hl, hr⟩ := trim_eq_self_parts htrim
  rcases breakAtFirstSpace_spec c with ⟨h1, h2⟩ | ⟨pre, post, heq, hpre, hbr⟩
  · rw [show parseChunk c = (c, []) by simp [parseChunk, h1]]
    exact ⟨hne, h2, hsemi, by simp, hl, rfl, fun _ => hr⟩
  · rw [show parseChunk c = (pre, trim post) by simp [parseChunk, hbr]]
    have hprene : pre ≠ [] := by
      rintro rfl
      simp at heq
      rw [heq] at hl
      rw [trimLeft_cons_space ' ' post (by decide)] at hl
      have := congrArg List.length hl
      have hlen := (trimLeft_suffix post).length_le
      simp at this
      omega
    obtain ⟨pc, pcs, hpc⟩ : ∃ pc pcs, pre = pc :: pcs := by
      cases pre with
      | nil => exact absurd rfl hprene
      | cons pc pcs => exact ⟨pc, pcs, rfl⟩
    have hheadpre : trimLeft pre = pre := by
      rw [hpc]
      refine trimLeft_cons_of_false ?_ pcs
      have : trimLeft (pc :: (pcs ++ ' ' :: post)) = pc :: (pcs ++ ' ' :: post) := by
        rw [show pc :: (pcs ++ ' ' :: post) = (pc :: pcs) ++ ' ' :: post by simp,
          ← hpc, ← heq]
        exact hl
      exact head_false_of_dropWhile_eq this
    have hsemipre : ';' ∉ pre := fun hx => hsemi (by simp [heq, hpc]; simp [hpc] at hx; tauto)
    have hsemipost : ';' ∉ trim post := by
      intro hx
      exact hsemi (by simp [heq]; exact Or.inr (mem_of_mem_trim hx))
    have hpostne : trim post ≠ [] := by
      obtain ⟨d, ds, hrev⟩ : ∃ d ds, post.reverse = d :: ds := by
        cases hp : post.reverse with
        | nil =>
          have : post = [] := by simpa using congrArg List.reverse hp
          rw [this] at heq
          have : c.reverse = ' ' :: pre.reverse := by simp [heq]
          have hws := last_false_of_trimRight_fix hr this
          rw [jsSpace_space] at hws
          exact absurd hws (by simp)
        | cons d ds => exact ⟨d, ds, rfl⟩
      have hd : jsSpace d = false := by
        have hcrev : c.reverse = d :: (ds ++ [' '] ++ pre.reverse) := by
          simp [heq, hrev]
        exact last_false_of_trimRight_fix hr hcrev
      exact trim_ne_nil_of_last hrev hd
    exact ⟨hprene, hpre, hsemipre, hsemipost, hheadpre, trim_idem post,
      fun h => absurd h hpostne⟩

/-! ### Map operation lemmas -/

theorem mapGet_eq_none_iff {m : Entries} {k : Str} :
    mapGet m k = none ↔ k ∉ m.map Prod.fst := by
  induction m with
  | nil => simp [mapGet]
  | cons e r ih =>
    obtain ⟨a, b⟩ := e
    by_cases h : a = k
    · subst h
      simp [mapGet]
    · simp [mapGet, h, ih, Ne.symm h]

theorem mapGet_first {m : Entries} (hnd : (m.map Prod.fst).Nodup) :
    ∀ e ∈ m, mapGet m e.1 = some e.2 := by
  induction m with
  | nil => intro e he; simp at he
  | cons f r ih =>
    intro e he
    obtain ⟨a, b⟩ := f
    rw [List.map_cons, List.nodup_cons] at hnd
    rcases List.mem_cons.1 he with rfl | he'
    · simp [mapGet]
    · have ha : a ≠ e.1 := by
        intro hx
        exact hnd.1 (hx ▸ List.mem_map.2 ⟨e, he', rfl⟩)
      simp only [mapGet, if_neg ha]
      exact ih hnd.2 e he'

theorem mapSet_keys_of_mem {m : Entries} {k : Str} (v : Str)
    (hk : k ∈ m.map Prod.fst) :
    (mapSet m k v).map Prod.fst = m.map Prod.fst := by
  induction m with
  | nil => simp at hk
  | cons f r ih =>
    obtain ⟨a, b⟩ := f
    by_cases h : a = k
    · simp [mapSet, h]
    · rw [List.map_cons, List.mem_cons] at hk
      rcases hk with hk | hk
      · exact absurd hk.symm h
      · simp [mapSet, h, ih hk]

theorem mapSet_miss {m : Entries} {k : Str} (v : Str)
    (hk : k ∉ m.map Prod.fst) : mapSet m k v = m ++ [(k, v)] := by
  induction m with
  | nil => simp [mapSet]
  | cons f r ih =>
    obtain ⟨a, b⟩ := f
    have ha : a ≠ k := by
      intro hx
      exact hk (by simp [hx])
    simp only [mapSet, if_neg ha, List.cons_append]
    rw [ih fun hx => hk (by simp [hx])]

theorem mem_mapSet {m : Entries} {k v : Str} {e : Str × Str}
    (he : e ∈ mapSet m k v) : e ∈ m ∨ e = (k, v) := by
  induction m with
  | nil => simp [mapSet] at he; exact Or.inr he
  | cons f r ih =>
    obtain ⟨a, b⟩ := f
    by_cases h : a = k
    · rw [mapSet, if_pos h] at he
      rcases List.mem_cons.1 he with rfl | he'
      · exact Or.inr (by rw [h])
      · exact Or.inl (List.mem_cons_of_mem _ he')
    · rw [mapSet, if_neg h] at he
      rcases List.mem_cons.1 he with rfl | he'
      · exact Or.inl (by simp)
      · rcases ih he' with h1 | h1
        · exact Or.inl (List.mem_cons_of_mem _ h1)
        · exact Or.inr h1

theorem mapGet_mapSet_self (m : Entries) (k v : Str) :
    mapGet (mapSet m k v) k = some v := by
  induction m with
  | nil => simp [mapSet, mapGet]
  | cons f r ih =>
    obtain ⟨a, b⟩ := f
    by_cases h : a = k
    · simp [mapSet, h, mapGet]
    · simp [mapSet, h, mapGet, ih]

theorem mapGet_mapSet_other (m : Entries) {k k' : Str} (v : Str) (h : k' ≠ k) :
    mapGet (mapSet m k v) k' = mapGet m k' := by
  induction m with
  | nil => simp [mapSet, mapGet, Ne.symm h]
  | cons f r ih =>
    obtain ⟨a, b⟩ := f
    by_cases ha : a = k
    · subst ha
      simp [mapSet, mapGet, Ne.symm h]
    · by_cases ha' : a = k'
      · subst ha'
        simp [mapSet, ha, mapGet]
      · simp [mapSet, ha, mapGet, ha', ih]

/-! ### Parse invariant -/

theorem splitOnChar_ne_nil (sep : Char) (s : Str) : splitOnChar sep s ≠ [] := by
  cases s with
  | nil => simp [splitOnChar]
  | cons c rest =>
    rw [splitOnChar]
    cases splitOnChar sep rest with
    | nil => simp
    | cons h t =>
      by_cases hc : c == sep
      · simp [hc]
      · simp [hc]

theorem splitOnChar_sep_not_mem (sep : Char) :
    ∀ s piece, piece ∈ splitOnChar sep s → sep ∉ piece := by
  intro s
  induction s with
  | nil =>
    intro piece hp
    simp [splitOnChar] at hp
    simp [hp]
  | cons c rest ih =>
    intro piece hp
    rw [splitOnChar] at hp
    cases hsp : splitOnChar sep rest with
    | nil => exact absurd hsp (splitOnChar_ne_nil sep rest)
    | cons h t =>
      rw [hsp] at hp
      have hp2 : piece ∈ if (c == sep) = true then [] :: h :: t else (c :: h) :: t := hp
      by_cases hc : c == sep
      · rw [if_pos hc] at hp2
        rcases List.mem_cons.1 hp2 with rfl | hp'
        · simp
        · exact ih piece (hsp ▸ hp')
      · rw [if_neg hc] at hp2
        rcases List.mem_cons.1 hp2 with rfl | hp'
        · intro hmem
          rcases List.mem_cons.1 hmem with rfl | hmem'
          · simp at hc
          · exact ih h (by simp [hsp]) hmem'
        · exact ih piece (by simp [hsp, hp'])

theorem chunksOf_wf (x : Str) : ∀ c ∈ chunksOf x, wfChunk c := by
  intro c hc
  unfold chunksOf at hc
  rw [List.mem_filter] at hc
  obtain ⟨hmem, hne⟩ := hc
  rw [List.mem_map] at hmem
  obtain ⟨c₀, hc₀, rfl⟩ := hmem
  refine ⟨?_, trim_idem c₀, ?_⟩
  · intro hnil
    rw [hnil] at hne
    simp at hne
  · intro hx
    exact splitOnChar_sep_not_mem ';' x c₀ hc₀ (mem_of_mem_trim hx)

/-- Invariant of parsed (and patched) directive structures: the order list
is a prefix of the key list, keys are distinct, and entries well-formed.
For freshly parsed structures the order list is the whole key list. -/
def ParseInv (p : ParsedCspDirectives) : Prop :=
  p.order = p.directives.map Prod.fst ∧ (p.directives.map Prod.fst).Nodup ∧
  ∀ e ∈ p.directives, wfEntry e

theorem insertChunk_inv {p : ParsedCspDirectives} (hp : ParseInv p) {c : Str}
    (hc : wfChunk c) : ParseInv (insertChunk p c) := by
  obtain ⟨ho, hnd, hwf⟩ := hp
  have hwfe := parseChunk_wf hc
  by_cases hmem : (mapGet p.directives (parseChunk c).1).isSome
  · have hk : (parseChunk c).1 ∈ p.directives.map Prod.fst := by
      by_contra hx
      rw [mapGet_eq_none_iff.2 hx] at hmem
      simp at hmem
    refine ⟨?_, ?_, ?_⟩
    · show (if (mapGet p.directives (parseChunk c).1).isSome then p.order
           else p.order ++ [(parseChunk c).1]) = _
      rw [if_pos hmem]
      show p.order = (mapSet p.directives (parseChunk c).1 (parseChunk c).2).map Prod.fst
      rw [mapSet_keys_of_mem _ hk, ho]
    · show ((mapSet p.directives (parseChunk c).1 (parseChunk c).2).map Prod.fst).Nodup
      rw [mapSet_keys_of_mem _ hk]
      exact hnd
    · intro e he
      rcases mem_mapSet he with h1 | h1
      · exact hwf e h1
      · rw [h1]
        exact hwfe
  · have hk := mapGet_eq_none_iff.1 (Option.not_isSome_iff_eq_none.1 hmem)
    refine ⟨?_, ?_, ?_⟩
    · show (if (mapGet p.directives (parseChunk c).1).isSome then p.order
           else p.order ++ [(parseChunk c).1]) = _
      rw [if_neg hmem]
      show p.order ++ [(parseChunk c).1] =
        (mapSet p.directives (parseChunk c).1 (parseChunk c).2).map Prod.fst
      rw [mapSet_miss _ hk, List.map_append, ho]
      simp
    · show ((mapSet p.directives (parseChunk c).1 (parseChunk c).2).map Prod.fst).Nodup
      rw [mapSet_miss _ hk, List.map_append]
      simp [List.nodup_append, hnd, hk]
    · intro e he
      have he2 : e ∈ mapSet p.directives (parseChunk c).1 (parseChunk c).2 := he
      rw [mapSet_miss _ hk] at he2
      rcases List.mem_append.1 he2 with h1 | h1
      · exact hwf e h1
      · rw [List.mem_singleton.1 h1]
        exact hwfe

theorem parse_fold_inv :
    ∀ (chunks : List Str) (p : ParsedCspDirectives), ParseInv p →
      (∀ c ∈ chunks, wfChunk c) → ParseInv (chunks.foldl insertChunk p) := by
  intro chunks
  induction chunks with
  | nil => intro p hp _; exact hp
  | cons c cs ih =>
    intro p hp hwf
    rw [List.foldl_cons]
    exact ih _ (insertChunk_inv hp (hwf c (by simp)))
      fun x hx => hwf x (List.mem_cons_of_mem _ hx)

theorem parseCspDirectives_inv (x : Str) : ParseInv (parseCspDirectives x) :=
  parse_fold_inv _ _ ⟨rfl, by simp, by simp⟩ (chunksOf_wf x)

/-! ### Serialize structure -/

theorem serialize_step1 (m : Entries) :
    ∀ (d1 : Entries) (acc1 acc2 : List Str),
      (∀ e ∈ d1, mapGet m e.1 = some e.2) →
      (d1.map Prod.fst).foldl
        (fun (acc : List Str × List Str) n =>
          match mapGet m n with
          | none => acc
          | some v => (acc.1 ++ [renderEntry (n, v)], acc.2 ++ [n]))
        (acc1, acc2) =
      (acc1 ++ d1.map renderEntry, acc2 ++ d1.map Prod.fst) := by
  intro d1
  induction d1 with
  | nil => intro acc1 acc2 _; simp
  | cons e r ih =>
    intro acc1 acc2 hget
    rw [List.map_cons, List.foldl_cons]
    have hstep :
        (match mapGet m e.1 with
          | none => (acc1, acc2)
          | some v =>
            ((acc1, acc2).1 ++ [renderEntry (e.1, v)], (acc1, acc2).2 ++ [e.1])) =
        ((acc1 ++ [renderEntry (e.1, e.2)], acc2 ++ [e.1]) :
          List Str × List Str) := by
      rw [hget e (by simp)]
    rw [hstep, ih _ _ fun x hx => hget x (List.mem_cons_of_mem _ hx)]
    simp

theorem serialize_step2_skip {seen : List Str} :
    ∀ (d : Entries) (acc : List Str), (∀ e ∈ d, e.1 ∈ seen) →
      d.foldl (fun acc nv => if nv.1 ∈ seen then acc else acc ++ [renderEntry nv])
        acc = acc := by
  intro d
  induction d with
  | nil => intro acc _; rfl
  | cons e r ih =>
    intro acc h
    rw [List.foldl_cons, if_pos (h e (by simp))]
    exact ih acc fun x hx => h x (List.mem_cons_of_mem _ hx)

theorem serialize_step2_app {seen : List Str} :
    ∀ (d : Entries) (acc : List Str), (∀ e ∈ d, e.1 ∉ seen) →
      d.foldl (fun acc nv => if nv.1 ∈ seen then acc else acc ++ [renderEntry nv])
        acc = acc ++ d.map renderEntry := by
  intro d
  induction d with
  | nil => intro acc _; simp
  | cons e r ih =>
    intro acc h
    rw [List.foldl_cons, if_neg (h e (by simp)),
      ih _ fun x hx => h x (List.mem_cons_of_mem _ hx)]
    simp

/-- When the order list is the key list of a prefix of the directive map and
keys are distinct, serialization renders the map entries in map order. -/
theorem serialize_eq_render {p : ParsedCspDirectives} {d1 d2 : Entries}
    (hd : p.directives = d1 ++ d2) (ho : p.order = d1.map Prod.fst)
    (hnd : (p.directives.map Prod.fst).Nodup) :
    serializeCspDirectives p =
      joinSep (strOf "; ") (p.directives.map renderEntry) := by
  have hget : ∀ e ∈ d1, mapGet p.directives e.1 = some e.2 := fun e he =>
    mapGet_first hnd e (by rw [hd]; exact List.mem_append.2 (Or.inl he))
  have hndq := hnd
  rw [hd, List.map_append, List.nodup_append] at hndq
  show (let step := p.order.foldl
          (fun (acc : List Str × List Str) n =>
            match mapGet p.directives n with
            | none => acc
            | some v => (acc.1 ++ [renderEntry (n, v)], acc.2 ++ [n]))
          ([], [])
        let rendered := p.directives.foldl
          (fun acc nv => if nv.1 ∈ step.2 then acc else acc ++ [renderEntry nv])
          step.1
        joinSep (strOf "; ") rendered) = _
  rw [ho]
  rw [serialize_step1 p.directives d1 [] [] hget]
  simp only [List.nil_append]
  rw [hd, List.foldl_append]
  rw [serialize_step2_skip d1 _ fun e he => List.mem_map.2 ⟨e, he, rfl⟩]
  rw [serialize_step2_app d2 _ fun e he hx => hndq.2.2 hx (List.mem_map.2 ⟨e, he, rfl⟩)]
  rw [List.map_append]

/-! ### Splitting a serialized value back into chunks -/

theorem splitOnChar_cons_sep (sep : Char) (s : Str) :
    splitOnChar sep (sep :: s) = [] :: splitOnChar sep s := by
  rw [splitOnChar]
  cases hsp : splitOnChar sep s with
  | nil => exact absurd hsp (splitOnChar_ne_nil sep s)
  | cons h t => simp

theorem splitOnChar_append_free :
    ∀ (c : Str), ';' ∉ c → ∀ (s : Str) (h : Str) (t : List Str),
      splitOnChar ';' s = h :: t →
      splitOnChar ';' (c ++ s) = (c ++ h) :: t := by
  intro c
  induction c with
  | nil => intro _ s h t hs; simpa using hs
  | cons a r ih =>
    intro hc s h t hs
    have ha : (a == ';') = false := by
      simp only [beq_eq_false_iff_ne, ne_eq]
      intro hx
      exact hc (by simp [hx])
    have hr := ih (fun hx => hc (List.mem_cons_of_mem _ hx)) s h t hs
    rw [List.cons_append, splitOnChar, hr]
    simp [ha]

theorem splitOnChar_no_sep {c : Str} (hc : ';' ∉ c) : splitOnChar ';' c = [c] := by
  have h0 : splitOnChar ';' ([] : Str) = [] :: [] := rfl
  have := splitOnChar_append_free c hc [] [] [] h0
  simpa using this

theorem chunksOf_joinSemiSp {cs : List Str} (h : ∀ c ∈ cs, wfChunk c) :
    chunksOf (joinSep (strOf "; ") cs) = cs := by
  induction cs with
  | nil => rfl
  | cons c cs ih =>
    obtain ⟨h1, h2, h3⟩ := h c (by simp)
    cases cs with
    | nil =>
      unfold chunksOf
      rw [joinSep_single, splitOnChar_no_sep h3]
      simp [h2, h1]
    | cons y r =>
      have hj : joinSep (strOf "; ") (c :: y :: r) =
          c ++ ';' :: ' ' :: joinSep (strOf "; ") (y :: r) := by
        simp [strOf]
      cases hsp : splitOnChar ';' (joinSep (strOf "; ") (y :: r)) with
      | nil => exact absurd hsp (splitOnChar_ne_nil ';' _)
      | cons hh tt =>
        have e1 : splitOnChar ';' (' ' :: joinSep (strOf "; ") (y :: r)) =
            (' ' :: hh) :: tt := by
          have := splitOnChar_append_free [' '] (by decide) _ hh tt hsp
          simpa using this
        have e2 : splitOnChar ';' (';' :: ' ' :: joinSep (strOf "; ") (y :: r)) =
            [] :: (' ' :: hh) :: tt := by
          rw [splitOnChar_cons_sep, e1]
        have e3 : splitOnChar ';' (c ++ ';' :: ' ' :: joinSep (strOf "; ") (y :: r)) =
            (c ++ []) :: (' ' :: hh) :: tt :=
          splitOnChar_append_free c h3 _ _ _ e2
        have ihy := ih fun x hx => h x (List.mem_cons_of_mem _ hx)
        unfold chunksOf at ihy ⊢
        rw [hsp, List.map_cons] at ihy
        rw [hj, e3, List.append_nil, List.map_cons, List.map_cons,
          trim_cons_space ' ' hh (by decide), h2,
          List.filter_cons_of_pos (by simp [h1]), ihy]

/-! ### Rebuilding a parse from rendered entries -/

theorem parseChunk_render {e : Str × Str} (he : wfEntry e) :
    parseChunk (renderEntry e) = e := by
  obtain ⟨n, v⟩ := e
  obtain ⟨h1, h2, h3, h4, h5, h6, h7⟩ := he
  by_cases hv : v = []
  · subst hv
    rw [show renderEntry (n, []) = n from by simp [renderEntry]]
    rw [parseChunk, breakAtFirstSpace_no_space h2]
  · rw [show renderEntry (n, v) = n ++ ' ' :: v from by
      simp [renderEntry, hv, strOf]]
    rw [parseChunk, breakAtFirstSpace_append h2 v]
    show (n, trim (n, v).2) = (n, v)
    rw [h6]

theorem renderEntry_wfChunk {e : Str × Str} (he : wfEntry e) :
    wfChunk (renderEntry e) := by
  obtain ⟨n, v⟩ := e
  obtain ⟨h1, h2, h3, h4, h5, h6, h7⟩ := he
  by_cases hv : v = []
  · subst hv
    rw [show renderEntry (n, []) = n from by simp [renderEntry]]
    refine ⟨h1, ?_, h3⟩
    rw [trim, h5, h7 rfl]
  · rw [show renderEntry (n, v) = n ++ ' ' :: v from by
      simp [renderEntry, hv, strOf]]
    obtain ⟨nc, nr, hn⟩ : ∃ nc nr, n = nc :: nr := by
      cases n with
      | nil => exact absurd rfl h1
      | cons nc nr => exact ⟨nc, nr, rfl⟩
    have hnc : jsSpace nc = false := by
      rw [hn] at h5
      exact head_false_of_dropWhile_eq h5
    refine ⟨by simp, ?_, ?_⟩
    · have hvparts := trim_eq_self_parts h6
      have htl : trimLeft (n ++ ' ' :: v) = n ++ ' ' :: v := by
        rw [hn, List.cons_append]
        exact trimLeft_cons_of_false hnc _
      have htr : trimRight (n ++ ' ' :: v) = n ++ ' ' :: v := by
        rw [show n ++ ' ' :: v = (n ++ [' ']) ++ v from by simp]
        exact trimRight_append hvparts.2 hv
      rw [trim, htl, htr]
    · intro hx
      rcases List.mem_append.1 hx with hx | hx
      · exact h3 hx
      · rcases List.mem_cons.1 hx with hx | hx
        · exact absurd hx (by decide)
        · exact h4 hx

theorem fromChunks_entries :
    ∀ (entries : Entries) (acc : Entries),
      ((acc ++ entries).map Prod.fst).Nodup → (∀ e ∈ entries, wfEntry e) →
      (entries.map renderEntry).foldl insertChunk
          ⟨acc, acc.map Prod.fst⟩ =
        ⟨acc ++ entries, (acc ++ entries).map Prod.fst⟩ := by
  intro entries
  induction entries with
  | nil => intro acc _ _; simp
  | cons e es ih =>
    intro acc hnd hwf
    rw [List.map_cons, List.foldl_cons]
    have hpc : parseChunk (renderEntry e) = e := parseChunk_render (hwf e (by simp))
    have hkey : e.1 ∉ acc.map Prod.fst := by
      intro hx
      rw [List.map_append, List.nodup_append] at hnd
      exact hnd.2.2 hx (by simp)
    have hins : insertChunk ⟨acc, acc.map Prod.fst⟩ (renderEntry e) =
        ⟨acc ++ [e], (acc ++ [e]).map Prod.fst⟩ := by
      show (⟨mapSet acc (parseChunk (renderEntry e)).1 (parseChunk (renderEntry e)).2,
            if (mapGet acc (parseChunk (renderEntry e)).1).isSome then acc.map Prod.fst
            else acc.map Prod.fst ++ [(parseChunk (renderEntry e)).1]⟩ :
          ParsedCspDirectives) = _
      rw [hpc, mapGet_eq_none_iff.2 hkey]
      simp only [Option.isSome_none, Bool.false_eq_true, if_false]
      rw [mapSet_miss _ hkey]
      simp
    rw [hins]
    have hnd2 : (((acc ++ [e]) ++ es).map Prod.fst).Nodup := by
      rw [show (acc ++ [e]) ++ es = acc ++ e :: es from by simp]
      exact hnd
    have := ih (acc ++ [e]) hnd2 fun x hx => hwf x (List.mem_cons_of_mem _ hx)
    rw [this]
    simp

/-- Re-parsing the serialization of a parse yields the same parsed
structure. -/
theorem parse_serialize_parse (x : Str) :
    parseCspDirectives (serializeCspDirectives (parseCspDirectives x)) =
      parseCspDirectives x := by
  obtain ⟨ho, hnd, hwf⟩ := parseCspDirectives_inv x
  have hser : serializeCspDirectives (parseCspDirectives x) =
      joinSep (strOf "; ") ((parseCspDirectives x).directives.map renderEntry) :=
    @serialize_eq_render (parseCspDirectives x)
      ((parseCspDirectives x).directives) [] (by simp) ho hnd
  have hchunks : chunksOf (serializeCspDirectives (parseCspDirectives x)) =
      (parseCspDirectives x).directives.map renderEntry := by
    rw [hser]
    refine chunksOf_joinSemiSp fun c hc => ?_
    rw [List.mem_map] at hc
    obtain ⟨e, he, rfl⟩ := hc
    exact renderEntry_wfChunk (hwf e he)
  show (chunksOf (serializeCspDirectives (parseCspDirectives x))).foldl
      insertChunk ⟨[], []⟩ = parseCspDirectives x
  rw [hchunks]
  have := fromChunks_entries (parseCspDirectives x).directives []
    (by simpa using hnd) hwf
  simp only [List.nil_append] at this
  rw [show (⟨[], []⟩ : ParsedCspDirectives) =
    ⟨[], List.map Prod.fst ([] : Entries)⟩ from rfl, this, ← ho]

/-- C3: `Serialize(Parse(x))` is semantically equivalent to `x` modulo
whitespace and trailing-semicolon normalization — re-parsing it yields
exactly the same directives with unchanged values in first-seen order — and
a later duplicate directive name overwrites the value while keeping the
first occurrence's position (the order list is unchanged and the map holds
the new value). -/
theorem csp_codec_roundtrip :
    (∀ x : Str, parseCspDirectives (serializeCspDirectives
        (parseCspDirectives x)) = parseCspDirectives x) ∧
    (∀ (p : ParsedCspDirectives) (c : Str),
      (mapGet p.directives (parseChunk c).1).isSome = true →
      (insertChunk p c).order = p.order ∧
        mapGet (insertChunk p c).directives (parseChunk c).1 =
          some (parseChunk c).2) := by
  refine ⟨parse_serialize_parse, ?_⟩
  intro p c h
  constructor
  · show (if (mapGet p.directives (parseChunk c).1).isSome then p.order
         else p.order ++ [(parseChunk c).1]) = p.order
    rw [h]
    simp
  · exact mapGet_mapSet_self _ _ _

/-- Witness for C3 at a concrete input: a duplicate `style-src` chunk
overwrites the value and keeps the position. -/
theorem csp_codec_roundtrip_witness :
    (insertChunk (parseCspDirectives (strOf "style-src a; img-src b"))
        (strOf "style-src c")).order =
      (parseCspDirectives (strOf "style-src a; img-src b")).order ∧
    mapGet (insertChunk (parseCspDirectives (strOf "style-src a; img-src b"))
        (strOf "style-src c")).directives
        (parseChunk (strOf "style-src c")).1 =
      some (parseChunk (strOf "style-src c")).2 :=
  csp_codec_roundtrip.2 (parseCspDirectives (strOf "style-src a; img-src b"))
    (strOf "style-src c") (by decide)

/-! ### Hash sources and resolved options -/

/-- `CspHashSources` from the source (quoted sorted hash tokens per category,
plus the per-category counts). -/
structure CspHashSources where
  styleElementSources : List Str
  styleAttributeSources : List Str
  scriptElementSources : List Str
  inlineStyleHashes : Nat
  styleAttributeHashes : Nat
  inlineScriptHashes : Nat
deriving DecidableEq

/-- Aggregation mode of the resolved options. -/
inductive CspMode
  | globalMode
  | routeMode
deriving DecidableEq

/-- Overflow policy of the resolved options. -/
inductive OverflowMode
  | warnOn
  | errorOn
deriving DecidableEq

/-- `ResolvedCspOptions` from the source. -/
structure ResolvedCspOptions where
  autoHashes : Bool
  hashStyleElements : Bool
  hashStyleAttributes : Bool
  hashInlineScripts : Bool
  stripUnsafeInline : Bool
  mode : CspMode
  maxHeaderLineLength : Nat
  overflow : OverflowMode
deriving DecidableEq

/-- Directive name `style-src`. -/
def styleSrcName : Str := strOf "style-src"

/-- Directive name `style-src-attr`. -/
def styleSrcAttrName : Str := strOf "style-src-attr"

/-- Directive name `script-src`. -/
def scriptSrcName : Str := strOf "script-src"

/-- One category block of `patchCspValue` (the source repeats this exact
shape three times, lines 447-493, varying only the guard, directive name,
default source list, and additions): when the guard holds, read the current
sources (with default), merge, and write back only if the merged value
differs from the current one. -/
def patchOne (p : ParsedCspDirectives) (applies : Bool) (dname : Str)
    (dflt : Str) (adds : List Str) (strip : Bool) :
    ParsedCspDirectives × Bool :=
  if applies then
    if mapGet p.directives dname ≠
        some (mergeCspSources
          (splitCspSources ((mapGet p.directives dname).getD dflt))
          adds strip) then
      (⟨mapSet p.directives dname
          (mergeCspSources
            (splitCspSources ((mapGet p.directives dname).getD dflt))
            adds strip),
        p.order⟩, true)
    else (p, false)
  else (p, false)

/-- Parse stage of `patchCspValue`:
`parseCspDirectives(rawCspValue.trim().replace(/;+\s*$/, ""))`. -/
def patchP0 (raw : Str) : ParsedCspDirectives :=
  parseCspDirectives (stripTrailSemiWs (trim raw))

/-- Style-element stage of `patchCspValue` (guard
`hashStyleElements && styleElementSources.length > 0`, directive
`style-src`, default `'self'`). -/
def patchR1 (raw : Str) (sources : CspHashSources) (o : ResolvedCspOptions) :
    ParsedCspDirectives × Bool :=
  patchOne (patchP0 raw)
    (o.hashStyleElements && !sources.styleElementSources.isEmpty)
    styleSrcName selfTok sources.styleElementSources o.stripUnsafeInline

/-- Style-attribute stage of `patchCspValue` (guard
`hashStyleAttributes && styleAttributeSources.length > 0`, directive
`style-src-attr`, default empty, additions `'unsafe-hashes'` followed by the
attribute hashes). -/
def patchR2 (raw : Str) (sources : CspHashSources) (o : ResolvedCspOptions) :
    ParsedCspDirectives × Bool :=
  patchOne (patchR1 raw sources o).1
    (o.hashStyleAttributes && !sources.styleAttributeSources.isEmpty)
    styleSrcAttrName [] (unsafeHashesTok :: sources.styleAttributeSources)
    o.stripUnsafeInline

/-- Inline-script stage of `patchCspValue` (guard
`hashInlineScripts && scriptElementSources.length > 0`, directive
`script-src`, default `'self'`). -/
def patchR3 (raw : Str) (sources : CspHashSources) (o : ResolvedCspOptions) :
    ParsedCspDirectives × Bool :=
  patchOne (patchR2 raw sources o).1
    (o.hashInlineScripts && !sources.scriptElementSources.isEmpty)
    scriptSrcName selfTok sources.scriptElementSources o.stripUnsafeInline

/-- `patchCspValue` from the source: if no stage changed anything, return the
original raw value unmodified, else serialize with a trailing `;`. -/
def patchCspValue (raw : Str) (sources : CspHashSources)
    (o : ResolvedCspOptions) : Str :=
  if (patchR1 raw sources o).2 || (patchR2 raw sources o).2 ||
      (patchR3 raw sources o).2 then
    serializeCspDirectives (patchR3 raw sources o).1 ++ [';']
  else raw

/-! ### Hash-token hygiene (HashSources invariant of the data model) -/

/-- Base64 alphabet characters. -/
def isBase64Char (c : Char) : Bool :=
  (65 ≤ c.toNat && c.toNat ≤ 90) || (97 ≤ c.toNat && c.toNat ≤ 122) ||
  (48 ≤ c.toNat && c.toNat ≤ 57) || c.toNat == 43 || c.toNat == 47

/-- HashSources invariant: every token has the exact shape
`'sha256-<43 base64 characters>='` (quoted). -/
def isHashTok (t : Str) : Prop :=
  ∃ b : Str, t = (qc :: strOf "sha256-") ++ b ++ ['=', qc] ∧
    b.length = 43 ∧ ∀ c ∈ b, isBase64Char c = true

/-- Token hygiene needed by the merge/codec proofs: non-empty,
whitespace-free and semicolon-free. -/
def goodTok (t : Str) : Prop :=
  t ≠ [] ∧ ∀ c ∈ t, jsSpace c = false ∧ c ≠ ';'

/-- All three source lists satisfy the HashSources invariant. -/
def goodSources (s : CspHashSources) : Prop :=
  (∀ t ∈ s.styleElementSources, isHashTok t) ∧
  (∀ t ∈ s.styleAttributeSources, isHashTok t) ∧
  (∀ t ∈ s.scriptElementSources, isHashTok t)

theorem char_beq_false_of_toNat_ne {c d : Char} (h : c.toNat ≠ d.toNat) :
    (c == d) = false :=
  beq_eq_false_iff_ne.2 fun hcd => h (congrArg Char.toNat hcd)

theorem base64_char_facts {c : Char} (h : isBase64Char c = true) :
    jsSpace c = false ∧ c ≠ ';' := by
  have hn : (65 ≤ c.toNat ∧ c.toNat ≤ 90) ∨ (97 ≤ c.toNat ∧ c.toNat ≤ 122) ∨
      (48 ≤ c.toNat ∧ c.toNat ≤ 57) ∨ c.toNat = 43 ∨ c.toNat = 47 := by
    unfold isBase64Char at h
    simp only [Bool.or_eq_true, Bool.and_eq_true, decide_eq_true_eq,
      beq_iff_eq] at h
    tauto
  constructor
  · unfold jsSpace
    rw [char_beq_false_of_toNat_ne (show c.toNat ≠ (' ' : Char).toNat by
        show c.toNat ≠ 32; omega),
      char_beq_false_of_toNat_ne (show c.toNat ≠ ('\t' : Char).toNat by
        show c.toNat ≠ 9; omega),
      char_beq_false_of_toNat_ne (show c.toNat ≠ ('\n' : Char).toNat by
        show c.toNat ≠ 10; omega),
      char_beq_false_of_toNat_ne (show c.toNat ≠ ('\r' : Char).toNat by
        show c.toNat ≠ 13; omega),
      char_beq_false_of_toNat_ne (show c.toNat ≠ (Char.ofNat 0x0b).toNat by
        show c.toNat ≠ 11; omega),
      char_beq_false_of_toNat_ne (show c.toNat ≠ (Char.ofNat 0x0c).toNat by
        show c.toNat ≠ 12; omega),
      char_beq_false_of_toNat_ne (show c.toNat ≠ (Char.ofNat 0xa0).toNat by
        show c.toNat ≠ 160; omega),
      char_beq_false_of_toNat_ne (show c.toNat ≠ (Char.ofNat 0x1680).toNat by
        show c.toNat ≠ 5760; omega),
      char_beq_false_of_toNat_ne (show c.toNat ≠ (Char.ofNat 0x2028).toNat by
        show c.toNat ≠ 8232; omega),
      char_beq_false_of_toNat_ne (show c.toNat ≠ (Char.ofNat 0x2029).toNat by
        show c.toNat ≠ 8233; omega),
      char_beq_false_of_toNat_ne (show c.toNat ≠ (Char.ofNat 0x202f).toNat by
        show c.toNat ≠ 8239; omega),
      char_beq_false_of_toNat_ne (show c.toNat ≠ (Char.ofNat 0x205f).toNat by
        show c.toNat ≠ 8287; omega),
      char_beq_false_of_toNat_ne (show c.toNat ≠ (Char.ofNat 0x3000).toNat by
        show c.toNat ≠ 12288; omega),
      char_beq_false_of_toNat_ne (show c.toNat ≠ (Char.ofNat 0xfeff).toNat by
        show c.toNat ≠ 65279; omega)]
    have hrange : (decide (0x2000 ≤ c.toNat) && decide (c.toNat ≤ 0x200a)) = false := by
      have hx : ¬(0x2000 ≤ c.toNat) := by omega
      simp [hx]
    rw [hrange]
    simp
  · intro hc
    rw [hc] at hn
    revert hn
    decide

theorem hashTok_goodTok {t : Str} (h : isHashTok t) : goodTok t := by
  obtain ⟨b, rfl, hlen, hb64⟩ := h
  have hpre : ∀ x ∈ (qc :: strOf "sha256-"), jsSpace x = false ∧ x ≠ ';' := by decide
  have hsuf : ∀ x ∈ (['=', qc] : Str), jsSpace x = false ∧ x ≠ ';' := by decide
  refine ⟨by simp, ?_⟩
  intro c hc
  rcases List.mem_append.1 hc with hc | hc
  · rcases List.mem_append.1 hc with hc | hc
    · exact hpre c hc
    · exact base64_char_facts (hb64 c hc)
  · exact hsuf c hc

theorem hashTok_ne_none {t : Str} (h : isHashTok t) : t ≠ noneTok := by
  obtain ⟨b, rfl, hlen, _⟩ := h
  intro hx
  have hL := congrArg List.length hx
  rw [List.length_append, List.length_append] at hL
  have e1 : (qc :: strOf "sha256-").length = 8 := rfl
  have e2 : (['=', qc] : Str).length = 2 := rfl
  have e3 : noneTok.length = 6 := rfl
  rw [e1, e2, e3] at hL
  omega

theorem hashTok_ne_ui {t : Str} (h : isHashTok t) : t ≠ unsafeInlineTok := by
  obtain ⟨b, rfl, hlen, _⟩ := h
  intro hx
  have hL := congrArg List.length hx
  rw [List.length_append, List.length_append] at hL
  have e1 : (qc :: strOf "sha256-").length = 8 := rfl
  have e2 : (['=', qc] : Str).length = 2 := rfl
  have e3 : unsafeInlineTok.length = 15 := rfl
  rw [e1, e2, e3] at hL
  omega

theorem unsafeHashes_goodTok : goodTok unsafeHashesTok :=
  ⟨by decide, by decide⟩

/-- A sample valid hash token, for witnesses. -/
def sampleHash : Str := (qc :: strOf "sha256-") ++ List.replicate 43 'A' ++ ['=', qc]

theorem sampleHash_isHashTok : isHashTok sampleHash :=
  ⟨List.replicate 43 'A', rfl, by decide, by decide⟩

/-! ### Character-subset lemmas -/

theorem mem_splitCspSources_chars :
    ∀ (s : Str), ∀ t ∈ splitCspSources s, ∀ c ∈ t, c ∈ s := by
  intro s
  induction s using twoStepInduction with
  | h0 => intro t ht; simp [splitCspSources] at ht
  | h1 a =>
    intro t ht c hc
    by_cases ha : jsSpace a
    · simp [splitCspSources, ha] at ht
    · simp [splitCspSources, ha] at ht
      subst ht
      simpa using hc
  | h2 a d rest ih1 ih2 =>
    intro t ht c hc
    by_cases ha : jsSpace a
    · rw [show splitCspSources (a :: d :: rest) = splitCspSources (d :: rest) by
        simp [splitCspSources, ha]] at ht
      exact List.mem_cons_of_mem _ (ih1 t ht c hc)
    · by_cases hd : jsSpace d
      · rw [show splitCspSources (a :: d :: rest) = [a] :: splitCspSources rest by
          simp [splitCspSources, ha, hd]] at ht
        rcases List.mem_cons.1 ht with rfl | h
        · simp at hc
          simp [hc]
        · have := ih2 t h c hc
          simp [this]
      · cases hsp : splitCspSources (d :: rest) with
        | nil =>
          rw [show splitCspSources (a :: d :: rest) = [[a]] by
            simp [splitCspSources, ha, hd, hsp]] at ht
          simp at ht
          subst ht
          simp at hc
          simp [hc]
        | cons w ws =>
          rw [show splitCspSources (a :: d :: rest) = (a :: w) :: ws by
            simp [splitCspSources, ha, hd, hsp]] at ht
          rcases List.mem_cons.1 ht with rfl | h
          · rcases List.mem_cons.1 hc with rfl | h
            · simp
            · exact List.mem_cons_of_mem _ (ih1 w (by simp [hsp]) c h)
          · exact List.mem_cons_of_mem _ (ih1 t (by simp [hsp, h]) c hc)

theorem mem_joinSep_chars {sep : Str} :
    ∀ {L : List Str} {c : Char}, c ∈ joinSep sep L →
      c ∈ sep ∨ ∃ t ∈ L, c ∈ t := by
  intro L
  induction L with
  | nil => intro c hc; simp at hc
  | cons x rest ih =>
    intro c hc
    cases rest with
    | nil =>
      rw [joinSep_single] at hc
      exact Or.inr ⟨x, by simp, hc⟩
    | cons y r =>
      rw [joinSep_cons₂] at hc
      rcases List.mem_append.1 hc with hc | hc
      · rcases List.mem_append.1 hc with hc | hc
        · exact Or.inr ⟨x, by simp, hc⟩
        · exact Or.inl hc
      · rcases ih hc with h | ⟨t, ht, hct⟩
        · exact Or.inl h
        · exact Or.inr ⟨t, List.mem_cons_of_mem _ ht, hct⟩

theorem mem_mergeCspList_sub {E A : List Str} {s : Bool} {x : Str}
    (h : x ∈ mergeCspList E A s) : x ∈ E ∨ x ∈ A := by
  rcases mem_mergeCspList.1 h with ⟨hm, _⟩ | ⟨hm, _⟩
  · exact Or.inl hm
  · exact Or.inr hm

theorem mergeCspSources_semi_free {E A : List Str} {s : Bool}
    (hE : ∀ t ∈ E, ';' ∉ t) (hA : ∀ t ∈ A, ';' ∉ t) :
    ';' ∉ mergeCspSources E A s := by
  intro hc
  have hj := mem_of_mem_trim hc
  rcases mem_joinSep_chars hj with h | ⟨t, ht, hct⟩
  · have : (';' : Char) ∈ strOf " " := h
    revert this
    decide
  · rcases mem_mergeCspList_sub ht with hm | hm
    · exact hE t hm hct
    · exact hA t hm hct

theorem splitCspSources_semi_free {v : Str} (hv : ';' ∉ v) :
    ∀ t ∈ splitCspSources v, ';' ∉ t :=
  fun t ht hc => hv (mem_splitCspSources_chars v t ht ';' hc)

/-! ### Patch invariant -/

/-- Invariant preserved by the patch stages: the order list is the key list
of a prefix of the directive map, keys distinct, entries well-formed. -/
def PatchInv (p : ParsedCspDirectives) : Prop :=
  (∃ d1 d2 : Entries, p.directives = d1 ++ d2 ∧ p.order = d1.map Prod.fst) ∧
  (p.directives.map Prod.fst).Nodup ∧ ∀ e ∈ p.directives, wfEntry e

theorem parseInv_patchInv {p : ParsedCspDirectives} (h : ParseInv p) :
    PatchInv p :=
  ⟨⟨p.directives, [], by simp, h.1⟩, h.2.1, h.2.2⟩

theorem mapSet_append_left {d1 d2 : Entries} {k : Str} (v : Str)
    (hk : k ∈ d1.map Prod.fst) :
    mapSet (d1 ++ d2) k v = mapSet d1 k v ++ d2 := by
  induction d1 with
  | nil => simp at hk
  | cons e r ih =>
    obtain ⟨a, b⟩ := e
    by_cases h : a = k
    · simp [mapSet, h]
    · rw [List.map_cons, List.mem_cons] at hk
      rcases hk with hk | hk
      · exact absurd hk.symm h
      · simp [mapSet, h, ih hk]

theorem mapSet_append_right {d1 d2 : Entries} {k : Str} (v : Str)
    (hk : k ∉ d1.map Prod.fst) :
    mapSet (d1 ++ d2) k v = d1 ++ mapSet d2 k v := by
  induction d1 with
  | nil => simp
  | cons e r ih =>
    obtain ⟨a, b⟩ := e
    have ha : a ≠ k := fun hx => hk (by simp [hx])
    simp only [List.cons_append, mapSet, if_neg ha]
    congr 1
    exact ih fun hx => hk (by simp [hx])

theorem mapGet_some_mem {m : Entries} {k v : Str} (h : mapGet m k = some v) :
    (k, v) ∈ m := by
  induction m with
  | nil => simp [mapGet] at h
  | cons f r ih =>
    obtain ⟨a, b⟩ := f
    by_cases ha : a = k
    · subst ha
      simp [mapGet] at h
      simp [h]
    · simp [mapGet, ha] at h
      exact List.mem_cons_of_mem _ (ih h)

theorem mapSet_keys_nodup {m : Entries} {k : Str} (v : Str)
    (hnd : (m.map Prod.fst).Nodup) :
    ((mapSet m k v).map Prod.fst).Nodup := by
  by_cases hk : k ∈ m.map Prod.fst
  · rw [mapSet_keys_of_mem v hk]
    exact hnd
  · rw [mapSet_miss v hk, List.map_append]
    simp [List.nodup_append, hnd, hk]

/-- Well-formedness of the directive names written by `patchCspValue`. -/
def dnameWf (dn : Str) : Prop :=
  dn ≠ [] ∧ ' ' ∉ dn ∧ ';' ∉ dn ∧ trimLeft dn = dn ∧ trimRight dn = dn

theorem styleSrcName_wf : dnameWf styleSrcName := by
  refine ⟨by decide, by decide, by decide, by decide, by decide⟩

theorem styleSrcAttrName_wf : dnameWf styleSrcAttrName := by
  refine ⟨by decide, by decide, by decide, by decide, by decide⟩

theorem scriptSrcName_wf : dnameWf scriptSrcName := by
  refine ⟨by decide, by decide, by decide, by decide, by decide⟩

theorem wfEntry_patch {dn : Str} (hdn : dnameWf dn) (E A : List Str) (s : Bool)
    (hE : ∀ t ∈ E, ';' ∉ t) (hA : ∀ t ∈ A, ';' ∉ t) :
    wfEntry (dn, mergeCspSources E A s) := by
  obtain ⟨h1, h2, h3, h4, h5⟩ := hdn
  refine ⟨h1, h2, h3, mergeCspSources_semi_free hE hA, h4, ?_, fun _ => h5⟩
  show trim (mergeCspSources E A s) = mergeCspSources E A s
  unfold mergeCspSources
  exact trim_idem _

/-! ### `patchOne` characterization -/

theorem patchOne_eq_no {p : ParsedCspDirectives} {dn df : Str}
    {adds : List Str} {strip : Bool} :
    patchOne p false dn df adds strip = (p, false) := by
  simp [patchOne]

theorem patchOne_eq_keep {p : ParsedCspDirectives} {dn df : Str}
    {adds : List Str} {strip : Bool}
    (h : mapGet p.directives dn =
      some (mergeCspSources
        (splitCspSources ((mapGet p.directives dn).getD df)) adds strip)) :
    patchOne p true dn df adds strip = (p, false) := by
  unfold patchOne
  rw [if_pos rfl, if_neg (fun hne => hne h)]

theorem patchOne_eq_set {p : ParsedCspDirectives} {dn df : Str}
    {adds : List Str} {strip : Bool}
    (h : mapGet p.directives dn ≠
      some (mergeCspSources
        (splitCspSources ((mapGet p.directives dn).getD df)) adds strip)) :
    patchOne p true dn df adds strip =
      (⟨mapSet p.directives dn
          (mergeCspSources
            (splitCspSources ((mapGet p.directives dn).getD df)) adds strip),
        p.order⟩, true) := by
  unfold patchOne
  rw [if_pos rfl, if_pos h]

theorem patchOne_get_other {p : ParsedCspDirectives} {ap : Bool} {dn df : Str}
    {adds : List Str} {strip : Bool} {k : Str} (hk : k ≠ dn) :
    mapGet (patchOne p ap dn df adds strip).1.directives k =
      mapGet p.directives k := by
  cases ap with
  | false => rw [patchOne_eq_no]
  | true =>
    by_cases h : mapGet p.directives dn ≠
        some (mergeCspSources
          (splitCspSources ((mapGet p.directives dn).getD df)) adds strip)
    · rw [patchOne_eq_set h]
      exact mapGet_mapSet_other _ _ hk
    · rw [patchOne_eq_keep (not_not.1 h)]

theorem patchOne_get_self {p : ParsedCspDirectives} {dn df : Str}
    {adds : List Str} {strip : Bool} :
    mapGet (patchOne p true dn df adds strip).1.directives dn =
      some (mergeCspSources
        (splitCspSources ((mapGet p.directives dn).getD df)) adds strip) := by
  by_cases h : mapGet p.directives dn ≠
      some (mergeCspSources
        (splitCspSources ((mapGet p.directives dn).getD df)) adds strip)
  · rw [patchOne_eq_set h]
    exact mapGet_mapSet_self _ _ _
  · rw [patchOne_eq_keep (not_not.1 h)]
    exact not_not.1 h

theorem patchOne_order {p : ParsedCspDirectives} {ap : Bool} {dn df : Str}
    {adds : List Str} {strip : Bool} :
    (patchOne p ap dn df adds strip).1.order = p.order := by
  cases ap with
  | false => rw [patchOne_eq_no]
  | true =>
    by_cases h : mapGet p.directives dn ≠
        some (mergeCspSources
          (splitCspSources ((mapGet p.directives dn).getD df)) adds strip)
    · rw [patchOne_eq_set h]
    · rw [patchOne_eq_keep (not_not.1 h)]

theorem patchOne_inv {p : ParsedCspDirectives} (hp : PatchInv p) {ap : Bool}
    {dn df : Str} {adds : List Str} {strip : Bool}
    (hdn : dnameWf dn) (hdf : ';' ∉ df) (hA : ∀ t ∈ adds, ';' ∉ t) :
    PatchInv (patchOne p ap dn df adds strip).1 := by
  cases ap with
  | false => rw [patchOne_eq_no]; exact hp
  | true =>
    by_cases h : mapGet p.directives dn ≠
        some (mergeCspSources
          (splitCspSources ((mapGet p.directives dn).getD df)) adds strip)
    · rw [patchOne_eq_set h]
      obtain ⟨⟨d1, d2, hd, ho⟩, hnd, hwf⟩ := hp
      have hE : ∀ t ∈ splitCspSources ((mapGet p.directives dn).getD df), ';' ∉ t := by
        apply splitCspSources_semi_free
        cases hget : mapGet p.directives dn with
        | none => exact hdf
        | some v => exact (hwf (dn, v) (mapGet_some_mem hget)).2.2.2.1
      set nx := mergeCspSources
        (splitCspSources ((mapGet p.directives dn).getD df)) adds strip with hnx
      refine ⟨?_, ?_, ?_⟩
      · by_cases hk : dn ∈ d1.map Prod.fst
        · refine ⟨mapSet d1 dn nx, d2, ?_, ?_⟩
          · show mapSet p.directives dn nx = _
            rw [hd, mapSet_append_left _ hk]
          · show p.order = _
            rw [ho, mapSet_keys_of_mem _ hk]
        · refine ⟨d1, mapSet d2 dn nx, ?_, ?_⟩
          · show mapSet p.directives dn nx = _
            rw [hd, mapSet_append_right _ hk]
          · exact ho
      · exact mapSet_keys_nodup _ hnd
      · intro e he
        rcases mem_mapSet he with h1 | h1
        · exact hwf e h1
        · rw [h1]
          exact wfEntry_patch hdn _ _ _ hE hA
    · rw [patchOne_eq_keep (not_not.1 h)]
      exact hp

/-! ### Round-trip of a patched structure through serialize/strip/parse -/

theorem revDropWhile_append {p : Char → Bool} {xs ys : Str}
    (hys : ys.reverse.dropWhile p = ys.reverse) (hne : ys ≠ []) :
    (xs ++ ys).reverse.dropWhile p = (xs ++ ys).reverse := by
  obtain ⟨d, ds, hds⟩ : ∃ d ds, ys.reverse = d :: ds := by
    cases hys' : ys.reverse with
    | nil => exact absurd (by simpa using congrArg List.reverse hys') hne
    | cons d ds => exact ⟨d, ds, rfl⟩
  have hd : p d = false := head_false_of_dropWhile_eq (hds ▸ hys)
  rw [List.reverse_append, hds, List.cons_append,
    List.dropWhile_cons_of_neg (by simp [hd])]

theorem revDropWhile_join {p : Char → Bool} {sep : Str} {cs : List Str}
    (h : ∀ c ∈ cs, c ≠ [] ∧ c.reverse.dropWhile p = c.reverse) :
    (joinSep sep cs).reverse.dropWhile p = (joinSep sep cs).reverse := by
  induction cs with
  | nil => rfl
  | cons c rest ih =>
    cases rest with
    | nil => simpa using (h c (by simp)).2
    | cons y r =>
      rw [joinSep_cons₂]
      exact revDropWhile_append
        (ih fun t ht => h t (List.mem_cons_of_mem _ ht))
        (joinSep_ne_nil (h y (by simp)).1 r)

theorem stripTrailSemiWs_append_semi {J : Str}
    (hlast : J.reverse.dropWhile (fun c => c == ';') = J.reverse) :
    stripTrailSemiWs (J ++ [';']) = J := by
  show (if ((J ++ [';']).reverse.dropWhile jsSpace).head? = some ';' then
        (((J ++ [';']).reverse.dropWhile jsSpace).dropWhile
          (fun c => c == ';')).reverse
      else (J ++ [';'])) = J
  rw [show (J ++ [';']).reverse = ';' :: J.reverse from by simp]
  rw [List.dropWhile_cons_of_neg (by decide)]
  rw [List.head?_cons, if_pos rfl]
  rw [List.dropWhile_cons_of_pos (by decide)]
  rw [hlast, List.reverse_reverse]

theorem parse_stripped_serialize {p : ParsedCspDirectives} (hp : PatchInv p)
    (hne : p.directives ≠ []) :
    parseCspDirectives
        (stripTrailSemiWs (trim (serializeCspDirectives p ++ [';']))) =
      ⟨p.directives, p.directives.map Prod.fst⟩ := by
  obtain ⟨⟨d1, d2, hd, ho⟩, hnd, hwf⟩ := hp
  have hser : serializeCspDirectives p =
      joinSep (strOf "; ") (p.directives.map renderEntry) :=
    serialize_eq_render hd ho hnd
  have hchwf : ∀ c ∈ p.directives.map renderEntry, wfChunk c := by
    intro c hc
    rw [List.mem_map] at hc
    obtain ⟨e, he, rfl⟩ := hc
    exact renderEntry_wfChunk (hwf e he)
  obtain ⟨e0, es, hes⟩ : ∃ e0 es, p.directives.map renderEntry = e0 :: es := by
    cases hmap : p.directives.map renderEntry with
    | nil =>
      exact absurd (by simpa using congrArg List.length hmap) (by simp [hne])
    | cons e0 es => exact ⟨e0, es, rfl⟩
  have hheadJ : trimLeft (joinSep (strOf "; ") (p.directives.map renderEntry)
      ++ [';']) = joinSep (strOf "; ") (p.directives.map renderEntry) ++ [';'] := by
    rw [hes]
    obtain ⟨z, hz⟩ := joinSep_cons_eq_append (strOf "; ") e0 es
    rw [hz]
    obtain ⟨h1, h2, _⟩ := hchwf e0 (by rw [hes]; simp)
    obtain ⟨c0, c0s, hc0⟩ : ∃ c0 c0s, e0 = c0 :: c0s := by
      cases e0 with
      | nil => exact absurd rfl h1
      | cons c0 c0s => exact ⟨c0, c0s, rfl⟩
    have hl := (trim_eq_self_parts h2).1
    rw [hc0] at hl
    have hc0f : jsSpace c0 = false := head_false_of_dropWhile_eq hl
    rw [hc0, List.cons_append, List.cons_append]
    exact trimLeft_cons_of_false hc0f _
  have htrimR : trimRight (joinSep (strOf "; ") (p.directives.map renderEntry)
      ++ [';']) = joinSep (strOf "; ") (p.directives.map renderEntry) ++ [';'] :=
    trimRight_append (trimRight_eq_self_of_all (by decide)) (by simp)
  have hlast : (joinSep (strOf "; ") (p.directives.map renderEntry)).reverse.dropWhile
      (fun c => c == ';') =
      (joinSep (strOf "; ") (p.directives.map renderEntry)).reverse := by
    refine revDropWhile_join fun c hc => ⟨(hchwf c hc).1, ?_⟩
    refine dropWhile_all_false fun x hx => ?_
    have hxc : x ∈ c := by simpa using hx
    have : x ≠ ';' := fun hxe => (hchwf c hc).2.2 (hxe ▸ hxc)
    exact beq_eq_false_iff_ne.2 this
  rw [hser, trim, hheadJ, htrimR, stripTrailSemiWs_append_semi hlast]
  show (chunksOf (joinSep (strOf "; ") (p.directives.map renderEntry))).foldl
      insertChunk ⟨[], []⟩ = _
  rw [chunksOf_joinSemiSp hchwf]
  have := fromChunks_entries p.directives [] (by simpa using hnd) hwf
  simpa using this

/-! ### Patch chain facts -/

theorem goodTok_semi {t : Str} (h : goodTok t) : ';' ∉ t :=
  fun hc => (h.2 ';' hc).2 rfl

theorem goodTok_ws {t : Str} (h : goodTok t) : ∀ c ∈ t, jsSpace c = false :=
  fun c hc => (h.2 c hc).1

theorem mapSet_ne_nil {m : Entries} {k v : Str} : mapSet m k v ≠ [] := by
  cases m with
  | nil => simp [mapSet]
  | cons f r =>
    obtain ⟨a, b⟩ := f
    by_cases h : a = k <;> simp [mapSet, h]

theorem patchOne_ne_nil {p : ParsedCspDirectives} {ap : Bool} {dn df : Str}
    {adds : List Str} {strip : Bool} (h : p.directives ≠ []) :
    (patchOne p ap dn df adds strip).1.directives ≠ [] := by
  cases ap with
  | false => rw [patchOne_eq_no]; exact h
  | true =>
    by_cases hch : mapGet p.directives dn ≠
        some (mergeCspSources
          (splitCspSources ((mapGet p.directives dn).getD df)) adds strip)
    · rw [patchOne_eq_set hch]
      exact mapSet_ne_nil
    · rw [patchOne_eq_keep (not_not.1 hch)]
      exact h

theorem patchOne_ne_nil_of_changed {p : ParsedCspDirectives} {ap : Bool}
    {dn df : Str} {adds : List Str} {strip : Bool}
    (h : (patchOne p ap dn df adds strip).2 = true) :
    (patchOne p ap dn df adds strip).1.directives ≠ [] := by
  cases ap with
  | false => rw [patchOne_eq_no] at h ⊢; simp at h
  | true =>
    by_cases hch : mapGet p.directives dn ≠
        some (mergeCspSources
          (splitCspSources ((mapGet p.directives dn).getD df)) adds strip)
    · rw [patchOne_eq_set hch]
      exact mapSet_ne_nil
    · rw [patchOne_eq_keep (not_not.1 hch)] at h
      simp at h

theorem patchOne_get_self_of {p : ParsedCspDirectives} {ap : Bool} {dn df : Str}
    {adds : List Str} {strip : Bool} (hap : ap = true) :
    mapGet (patchOne p ap dn df adds strip).1.directives dn =
      some (mergeCspSources
        (splitCspSources ((mapGet p.directives dn).getD df)) adds strip) := by
  rw [hap]
  exact patchOne_get_self

/-- The merged value for a category coincides with the stored one, so the
category writes nothing back. -/
def mergedKeeps (p : ParsedCspDirectives) (dn df : Str) (adds : List Str)
    (strip : Bool) : Prop :=
  mapGet p.directives dn =
    some (mergeCspSources
      (splitCspSources ((mapGet p.directives dn).getD df)) adds strip)

theorem patchOne_not_changed {p : ParsedCspDirectives} {ap : Bool} {dn df : Str}
    {adds : List Str} {strip : Bool}
    (h : ap = true → mergedKeeps p dn df adds strip) :
    patchOne p ap dn df adds strip = (p, false) := by
  cases ap with
  | false => exact patchOne_eq_no
  | true => exact patchOne_eq_keep (h rfl)

theorem patchOne_unchanged_keeps {p : ParsedCspDirectives} {ap : Bool}
    {dn df : Str} {adds : List Str} {strip : Bool} (hap : ap = true)
    (h : (patchOne p ap dn df adds strip).2 = false) :
    mergedKeeps p dn df adds strip := by
  subst hap
  by_cases hch : mapGet p.directives dn ≠
      some (mergeCspSources
        (splitCspSources ((mapGet p.directives dn).getD df)) adds strip)
  · rw [patchOne_eq_set hch] at h
    simp at h
  · exact not_not.1 hch

/-- No enabled category produces a merged directive value differing from the
current one (per category: guard implies the merged value equals the stored
one, with the source defaults `'self'`, empty, `'self'`). -/
def noCatChanges (raw : Str) (sources : CspHashSources)
    (o : ResolvedCspOptions) : Prop :=
  ((o.hashStyleElements && !sources.styleElementSources.isEmpty) = true →
    mergedKeeps (patchP0 raw) styleSrcName selfTok
      sources.styleElementSources o.stripUnsafeInline) ∧
  ((o.hashStyleAttributes && !sources.styleAttributeSources.isEmpty) = true →
    mergedKeeps (patchP0 raw) styleSrcAttrName []
      (unsafeHashesTok :: sources.styleAttributeSources) o.stripUnsafeInline) ∧
  ((o.hashInlineScripts && !sources.scriptElementSources.isEmpty) = true →
    mergedKeeps (patchP0 raw) scriptSrcName selfTok
      sources.scriptElementSources o.stripUnsafeInline)

theorem patch_unchanged_of_keeps {raw : Str} {sources : CspHashSources}
    {o : ResolvedCspOptions} (h : noCatChanges raw sources o) :
    patchCspValue raw sources o = raw := by
  obtain ⟨h1, h2, h3⟩ := h
  have e1 : patchR1 raw sources o = (patchP0 raw, false) :=
    patchOne_not_changed h1
  have e2 : patchR2 raw sources o = (patchP0 raw, false) := by
    rw [patchR2, e1]
    exact patchOne_not_changed h2
  have e3 : patchR3 raw sources o = (patchP0 raw, false) := by
    rw [patchR3, e2]
    exact patchOne_not_changed h3
  rw [patchCspValue, e1, e2, e3]
  simp

theorem patchR3_inv (raw : Str) (sources : CspHashSources)
    (o : ResolvedCspOptions) (hs : goodSources sources) :
    PatchInv (patchR3 raw sources o).1 := by
  obtain ⟨hs1, hs2, hs3⟩ := hs
  have hA1 : ∀ t ∈ sources.styleElementSources, ';' ∉ t :=
    fun t ht => goodTok_semi (hashTok_goodTok (hs1 t ht))
  have hA2 : ∀ t ∈ unsafeHashesTok :: sources.styleAttributeSources, ';' ∉ t := by
    intro t ht
    rcases List.mem_cons.1 ht with rfl | ht
    · exact goodTok_semi unsafeHashes_goodTok
    · exact goodTok_semi (hashTok_goodTok (hs2 t ht))
  have hA3 : ∀ t ∈ sources.scriptElementSources, ';' ∉ t :=
    fun t ht => goodTok_semi (hashTok_goodTok (hs3 t ht))
  have i0 : PatchInv (patchP0 raw) :=
    parseInv_patchInv (parseCspDirectives_inv _)
  have i1 : PatchInv (patchR1 raw sources o).1 :=
    patchOne_inv i0 styleSrcName_wf (by decide) hA1
  have i2 : PatchInv (patchR2 raw sources o).1 :=
    patchOne_inv i1 styleSrcAttrName_wf (by simp) hA2
  exact patchOne_inv i2 scriptSrcName_wf (by decide) hA3

theorem final_get_style {raw : Str} {sources : CspHashSources}
    {o : ResolvedCspOptions}
    (hap : (o.hashStyleElements && !sources.styleElementSources.isEmpty) = true) :
    mapGet (patchR3 raw sources o).1.directives styleSrcName =
      some (mergeCspSources
        (splitCspSources
          ((mapGet (patchP0 raw).directives styleSrcName).getD selfTok))
        sources.styleElementSources o.stripUnsafeInline) := by
  rw [patchR3, patchOne_get_other (by decide), patchR2,
    patchOne_get_other (by decide), patchR1]
  exact patchOne_get_self_of hap

theorem final_get_attr {raw : Str} {sources : CspHashSources}
    {o : ResolvedCspOptions}
    (hap : (o.hashStyleAttributes && !sources.styleAttributeSources.isEmpty) = true) :
    mapGet (patchR3 raw sources o).1.directives styleSrcAttrName =
      some (mergeCspSources
        (splitCspSources
          ((mapGet (patchP0 raw).directives styleSrcAttrName).getD []))
        (unsafeHashesTok :: sources.styleAttributeSources)
        o.stripUnsafeInline) := by
  rw [patchR3, patchOne_get_other (by decide), patchR2]
  have hother : mapGet (patchR1 raw sources o).1.directives styleSrcAttrName =
      mapGet (patchP0 raw).directives styleSrcAttrName := by
    rw [patchR1, patchOne_get_other (by decide)]
  rw [patchOne_get_self_of hap, hother]

theorem final_get_script {raw : Str} {sources : CspHashSources}
    {o : ResolvedCspOptions}
    (hap : (o.hashInlineScripts && !sources.scriptElementSources.isEmpty) = true) :
    mapGet (patchR3 raw sources o).1.directives scriptSrcName =
      some (mergeCspSources
        (splitCspSources
          ((mapGet (patchP0 raw).directives scriptSrcName).getD selfTok))
        sources.scriptElementSources o.stripUnsafeInline) := by
  rw [patchR3]
  have hother : mapGet (patchR2 raw sources o).1.directives scriptSrcName =
      mapGet (patchP0 raw).directives scriptSrcName := by
    rw [patchR2, patchOne_get_other (by decide), patchR1,
      patchOne_get_other (by decide)]
  rw [patchOne_get_self_of hap, hother]

theorem patchR3_ne_nil_of_changed {raw : Str} {sources : CspHashSources}
    {o : ResolvedCspOptions}
    (hch : ((patchR1 raw sources o).2 || (patchR2 raw sources o).2 ||
      (patchR3 raw sources o).2) = true) :
    (patchR3 raw sources o).1.directives ≠ [] := by
  rcases Bool.or_eq_true_iff.1 hch with h12 | h3
  · rcases Bool.or_eq_true_iff.1 h12 with h1 | h2
    · have hne1 : (patchR1 raw sources o).1.directives ≠ [] := by
        rw [patchR1] at h1 ⊢
        exact patchOne_ne_nil_of_changed h1
      have hne2 : (patchR2 raw sources o).1.directives ≠ [] := by
        rw [patchR2]
        exact patchOne_ne_nil hne1
      rw [patchR3]
      exact patchOne_ne_nil hne2
    · have hne2 : (patchR2 raw sources o).1.directives ≠ [] := by
        rw [patchR2] at h2 ⊢
        exact patchOne_ne_nil_of_changed h2
      rw [patchR3]
      exact patchOne_ne_nil hne2
  · rw [patchR3] at h3 ⊢
    exact patchOne_ne_nil_of_changed h3

/-- When some stage changed, the final value re-parses to exactly the final
patched directive map. -/
theorem patch_final_parse {raw : Str} {sources : CspHashSources}
    {o : ResolvedCspOptions} (hs : goodSources sources)
    (hch : ((patchR1 raw sources o).2 || (patchR2 raw sources o).2 ||
      (patchR3 raw sources o).2) = true) :
    patchP0 (patchCspValue raw sources o) =
      ⟨(patchR3 raw sources o).1.directives,
        (patchR3 raw sources o).1.directives.map Prod.fst⟩ := by
  rw [patchCspValue, if_pos hch]
  exact
    parse_stripped_serialize (patchR3_inv raw sources o hs)
      (patchR3_ne_nil_of_changed hch)

theorem patch_idem_core (raw : Str) (sources : CspHashSources)
    (o : ResolvedCspOptions) (hs : goodSources sources) :
    patchCspValue (patchCspValue raw sources o) sources o =
      patchCspValue raw sources o := by
  by_cases hch : ((patchR1 raw sources o).2 || (patchR2 raw sources o).2 ||
      (patchR3 raw sources o).2) = true
  · have hparse := patch_final_parse hs hch
    obtain ⟨hs1, hs2, hs3⟩ := hs
    have hws1 : ∀ t ∈ sources.styleElementSources, ∀ c ∈ t, jsSpace c = false :=
      fun t ht => goodTok_ws (hashTok_goodTok (hs1 t ht))
    have hws2 : ∀ t ∈ unsafeHashesTok :: sources.styleAttributeSources,
        ∀ c ∈ t, jsSpace c = false := by
      intro t ht
      rcases List.mem_cons.1 ht with rfl | ht
      · exact goodTok_ws unsafeHashes_goodTok
      · exact goodTok_ws (hashTok_goodTok (hs2 t ht))
    have hws3 : ∀ t ∈ sources.scriptElementSources, ∀ c ∈ t, jsSpace c = false :=
      fun t ht => goodTok_ws (hashTok_goodTok (hs3 t ht))
    have hnone1 : noneTok ∉ sources.styleElementSources :=
      fun hm => hashTok_ne_none (hs1 _ hm) rfl
    have hui1 : o.stripUnsafeInline = true →
        unsafeInlineTok ∉ sources.styleElementSources :=
      fun _ hm => hashTok_ne_ui (hs1 _ hm) rfl
    have hnone2 : noneTok ∉ unsafeHashesTok :: sources.styleAttributeSources := by
      intro hm
      rcases List.mem_cons.1 hm with he | hm
      · revert he; decide
      · exact hashTok_ne_none (hs2 _ hm) rfl
    have hui2 : o.stripUnsafeInline = true →
        unsafeInlineTok ∉ unsafeHashesTok :: sources.styleAttributeSources := by
      intro _ hm
      rcases List.mem_cons.1 hm with he | hm
      · revert he; decide
      · exact hashTok_ne_ui (hs2 _ hm) rfl
    have hnone3 : noneTok ∉ sources.scriptElementSources :=
      fun hm => hashTok_ne_none (hs3 _ hm) rfl
    have hui3 : o.stripUnsafeInline = true →
        unsafeInlineTok ∉ sources.scriptElementSources :=
      fun _ hm => hashTok_ne_ui (hs3 _ hm) rfl
    apply patch_unchanged_of_keeps
    refine ⟨?_, ?_, ?_⟩
    · intro hap
      unfold mergedKeeps
      rw [hparse]
      dsimp only
      rw [final_get_style hap, Option.getD_some,
        mergeCspSources_split_idem _ _ _
          (fun t ht => (mem_splitCspSources_wf _ t ht).2) hws1 hnone1 hui1]
    · intro hap
      unfold mergedKeeps
      rw [hparse]
      dsimp only
      rw [final_get_attr hap, Option.getD_some,
        mergeCspSources_split_idem _ _ _
          (fun t ht => (mem_splitCspSources_wf _ t ht).2) hws2 hnone2 hui2]
    · intro hap
      unfold mergedKeeps
      rw [hparse]
      dsimp only
      rw [final_get_script hap, Option.getD_some,
        mergeCspSources_split_idem _ _ _
          (fun t ht => (mem_splitCspSources_wf _ t ht).2) hws3 hnone3 hui3]
  · have hraw : patchCspValue raw sources o = raw := by
      rw [patchCspValue, if_neg hch]
    rw [hraw]
    exact hraw

/-- C2: when no enabled hash category produces a merged directive value
differing from the current one, `patchCspValue` returns the original raw
value byte-for-byte; consequently, patching the result again with the same
sources and options returns it unchanged (no added `;`, no reordering).
Sources satisfy the HashSources invariant of the data model. -/
theorem patchCspValue_idempotent (raw : Str) (sources : CspHashSources)
    (o : ResolvedCspOptions) (hs : goodSources sources) :
    (noCatChanges raw sources o → patchCspValue raw sources o = raw) ∧
    patchCspValue (patchCspValue raw sources o) sources o =
      patchCspValue raw sources o :=
  ⟨patch_unchanged_of_keeps, patch_idem_core raw sources o hs⟩

/-- Concrete sources for witnesses: one style hash. -/
def wSources : CspHashSources := ⟨[sampleHash], [], [], 1, 0, 0⟩

/-- Concrete options for witnesses. -/
def wOpts : ResolvedCspOptions :=
  ⟨true, true, true, false, true, CspMode.globalMode, 2000, OverflowMode.errorOn⟩

/-- Concrete raw CSP value for witnesses: `style-src 'self'`. -/
def wRaw : Str := styleSrcName ++ [' '] ++ selfTok

theorem wSources_good : goodSources wSources := by
  refine ⟨?_, ?_, ?_⟩
  · intro t ht
    rw [show t = sampleHash by simpa [wSources] using ht]
    exact sampleHash_isHashTok
  · intro t ht
    simp [wSources] at ht
  · intro t ht
    simp [wSources] at ht

/-- Witness for C2 at a concrete input. -/
theorem patchCspValue_idempotent_witness :
    (noCatChanges wRaw wSources wOpts →
      patchCspValue wRaw wSources wOpts = wRaw) ∧
    patchCspValue (patchCspValue wRaw wSources wOpts) wSources wOpts =
      patchCspValue wRaw wSources wOpts :=
  patchCspValue_idempotent wRaw wSources wOpts wSources_good

/-- C6: for each enabled category with discovered sources, the patched
value's directive equals the merge of the current source list — read with
default `'self'` for `style-src`, the empty list for `style-src-attr` and
`'self'` for `script-src` when the directive is absent — with the discovered
hashes, where for `style-src-attr` the literal `'unsafe-hashes'` is placed
in the additions before the attribute hashes; and when no category's merged
value differs from the current one nothing is written back (the raw value is
returned unchanged). -/
theorem patchCspValue_category_semantics (raw : Str) (sources : CspHashSources)
    (o : ResolvedCspOptions) (hs : goodSources sources) :
    (((o.hashStyleElements && !sources.styleElementSources.isEmpty) = true →
      mapGet (patchP0 (patchCspValue raw sources o)).directives styleSrcName =
        some (mergeCspSources
          (splitCspSources
            ((mapGet (patchP0 raw).directives styleSrcName).getD selfTok))
          sources.styleElementSources o.stripUnsafeInline)) ∧
    ((o.hashStyleAttributes && !sources.styleAttributeSources.isEmpty) = true →
      mapGet (patchP0 (patchCspValue raw sources o)).directives styleSrcAttrName =
        some (mergeCspSources
          (splitCspSources
            ((mapGet (patchP0 raw).directives styleSrcAttrName).getD []))
          (unsafeHashesTok :: sources.styleAttributeSources)
          o.stripUnsafeInline)) ∧
    ((o.hashInlineScripts && !sources.scriptElementSources.isEmpty) = true →
      mapGet (patchP0 (patchCspValue raw sources o)).directives scriptSrcName =
        some (mergeCspSources
          (splitCspSources
            ((mapGet (patchP0 raw).directives scriptSrcName).getD selfTok))
          sources.scriptElementSources o.stripUnsafeInline))) ∧
    (noCatChanges raw sources o → patchCspValue raw sources o = raw) := by
  by_cases hch : ((patchR1 raw sources o).2 || (patchR2 raw sources o).2 ||
      (patchR3 raw sources o).2) = true
  · refine ⟨⟨?_, ?_, ?_⟩, fun h => patch_unchanged_of_keeps h⟩
    · intro hap
      rw [patch_final_parse hs hch]
      dsimp only
      exact final_get_style hap
    · intro hap
      rw [patch_final_parse hs hch]
      dsimp only
      exact final_get_attr hap
    · intro hap
      rw [patch_final_parse hs hch]
      dsimp only
      exact final_get_script hap
  · have hraw : patchCspValue raw sources o = raw := by
      rw [patchCspValue, if_neg hch]
    have hall : (patchR1 raw sources o).2 = false ∧
        (patchR2 raw sources o).2 = false ∧
        (patchR3 raw sources o).2 = false := by
      simp only [Bool.or_eq_true, not_or, Bool.not_eq_true] at hch
      exact ⟨hch.1.1, hch.1.2, hch.2⟩
    obtain ⟨e1, e2, e3⟩ := hall
    refine ⟨⟨?_, ?_, ?_⟩, fun h => patch_unchanged_of_keeps h⟩
    · intro hap
      rw [hraw]
      have hk : mergedKeeps (patchP0 raw) styleSrcName selfTok
          sources.styleElementSources o.stripUnsafeInline := by
        rw [patchR1] at e1
        exact patchOne_unchanged_keeps hap e1
      exact hk
    · intro hap
      rw [hraw]
      have hoth : mapGet (patchR1 raw sources o).1.directives styleSrcAttrName =
          mapGet (patchP0 raw).directives styleSrcAttrName := by
        rw [patchR1, patchOne_get_other (by decide)]
      have hk : mergedKeeps (patchR1 raw sources o).1 styleSrcAttrName []
          (unsafeHashesTok :: sources.styleAttributeSources)
          o.stripUnsafeInline := by
        rw [patchR2] at e2
        exact patchOne_unchanged_keeps hap e2
      unfold mergedKeeps at hk
      rw [hoth] at hk
      exact hk
    · intro hap
      rw [hraw]
      have hoth : mapGet (patchR2 raw sources o).1.directives scriptSrcName =
          mapGet (patchP0 raw).directives scriptSrcName := by
        rw [patchR2, patchOne_get_other (by decide), patchR1,
          patchOne_get_other (by decide)]
      have hk : mergedKeeps (patchR2 raw sources o).1 scriptSrcName selfTok
          sources.scriptElementSources o.stripUnsafeInline := by
        rw [patchR3] at e3
        exact patchOne_unchanged_keeps hap e3
      unfold mergedKeeps at hk
      rw [hoth] at hk
      exact hk

/-- Witness for C6 at a concrete input. -/
theorem patchCspValue_category_semantics_witness :
    mapGet (patchP0 (patchCspValue wRaw wSources wOpts)).directives
        styleSrcName =
      some (mergeCspSources
        (splitCspSources
          ((mapGet (patchP0 wRaw).directives styleSrcName).getD selfTok))
        wSources.styleElementSources wOpts.stripUnsafeInline) :=
  (patchCspValue_category_semantics wRaw wSources wOpts wSources_good).1.1
    (by decide)

/-! ### Routes, header names, and the `_headers` tail -/

/-- Header map of one route: a JS object in insertion order. -/
abbrev Headers := List (Str × Str)

/-- Route pattern → header map: a JS object in insertion order. -/
abbrev Routes := List (Str × Headers)

/-- JS object property read over a route map. -/
def routesGet (m : Routes) (k : Str) : Option Headers :=
  match m with
  | [] => none
  | (a, b) :: r => if a = k then some b else routesGet r k

/-- JS object property write over a route map: overwrite in place, else
append. -/
def routesSet (m : Routes) (k : Str) (v : Headers) : Routes :=
  match m with
  | [] => [(k, v)]
  | (a, b) :: r => if a = k then (a, v) :: r else (a, b) :: routesSet r k v

/-- ASCII lowercasing, modelling `String.prototype.toLowerCase` on header
names. -/
def lowerChar (c : Char) : Char :=
  if 65 ≤ c.toNat ∧ c.toNat ≤ 90 then Char.ofNat (c.toNat + 32) else c

/-- Lowercased string. -/
def lowerStr (s : Str) : Str := s.map lowerChar

/-- The header name `content-security-policy`. -/
def cspHeaderName : Str := strOf "content-security-policy"

/-- `findHeaderKey` from the source: the first key matching the name
case-insensitively (case preserved in the result). -/
def findHeaderKey (headers : Headers) (name : Str) : Option Str :=
  match headers with
  | [] => none
  | (k, _) :: rest =>
    if lowerStr k = lowerStr name then some k else findHeaderKey rest name

/-- One rendered header line `"  <name>: <value>"`. -/
def headerLine (name value : Str) : Str :=
  strOf "  " ++ name ++ strOf ": " ++ value

/-- The overflowing lines collected by `enforceHeaderLineLengthLimit`, in
route-then-header order: (route, header name, line length). -/
def collectExceeding (routes : Routes) (maxLen : Nat) :
    List (Str × Str × Nat) :=
  routes.flatMap fun rh =>
    rh.2.filterMap fun hv =>
      if (headerLine hv.1 hv.2).length > maxLen then
        some (rh.1, hv.1, (headerLine hv.1 hv.2).length)
      else none

/-- Decimal rendering of a number interpolated into the message. -/
def natToStr (n : Nat) : Str := (Nat.repr n).data

/-- The exact overflow message template of the source (lines 678-681). -/
def overflowMessage (first : Str × Str × Nat) (maxLen total : Nat) : Str :=
  strOf "[astro-cloudflare-pages-headers] Header line length overflow: " ++
  natToStr first.2.2 ++ strOf " characters for \"" ++ first.1 ++
  strOf "\" -> \"" ++ first.2.1 ++ strOf "\". Max allowed is " ++
  natToStr maxLen ++ strOf ". Found " ++ natToStr total ++
  strOf " overflowing line(s)."

/-- `enforceHeaderLineLengthLimit` from the source: collect the overflowing
lines; none → silent success; some → a single warning (overflow `warn`) or a
thrown error (overflow `error`), both carrying the message about the first
violation and the total count. -/
def enforceHeaderLineLengthLimit (routes : Routes) (o : ResolvedCspOptions) :
    Except Str (List Str) :=
  match collectExceeding routes o.maxHeaderLineLength with
  | [] => Except.ok []
  | first :: rest =>
    if o.overflow = OverflowMode.warnOn then
      Except.ok [overflowMessage first o.maxHeaderLineLength (rest.length + 1)]
    else
      Except.error (overflowMessage first o.maxHeaderLineLength (rest.length + 1))

/-- `generateHeadersContent` from the source. -/
def generateHeadersContent (routes : Routes) : Str :=
  joinSep (strOf "\n")
    (routes.flatMap fun rh =>
      rh.1 :: (rh.2.map fun hv => headerLine hv.1 hv.2) ++ [[]])

/-- Tail of the `astro:build:done` hook (lines 787-797): the length
enforcement runs before the headers file content is generated and written;
a thrown error propagates out of the hook, so `Except.error` means the
`_headers` file is never written, while `Except.ok` carries the warnings
logged and the content written. -/
def buildDoneTail (routes : Routes) (o : ResolvedCspOptions) :
    Except Str (List Str × Str) :=
  match enforceHeaderLineLengthLimit routes o with
  | Except.error m => Except.error m
  | Except.ok warns => Except.ok (warns, generateHeadersContent routes)

/-- C8: when some rendered header line exceeds the limit, overflow `warn`
logs exactly one warning naming the first violation (route, header name,
line length, limit, total count) and still produces the headers file
content; overflow `error` raises an error with the same message and produces
no file content. -/
theorem header_overflow_policy (routes : Routes) (o : ResolvedCspOptions)
    (first : Str × Str × Nat) (rest : List (Str × Str × Nat))
    (h : collectExceeding routes o.maxHeaderLineLength = first :: rest) :
    (o.overflow = OverflowMode.warnOn →
      buildDoneTail routes o = Except.ok
        ([overflowMessage first o.maxHeaderLineLength (rest.length + 1)],
          generateHeadersContent routes)) ∧
    (o.overflow = OverflowMode.errorOn →
      buildDoneTail routes o = Except.error
        (overflowMessage first o.maxHeaderLineLength (rest.length + 1))) := by
  constructor
  · intro ho
    rw [buildDoneTail, enforceHeaderLineLengthLimit, h]
    dsimp only
    rw [if_pos ho]
  · intro ho
    have hw : ¬ o.overflow = OverflowMode.warnOn := by
      rw [ho]
      intro hx
      exact absurd hx (by simp)
    rw [buildDoneTail, enforceHeaderLineLengthLimit, h]
    dsimp only
    rw [if_neg hw]

/-- Concrete route map with one 60-character header line, for the witness. -/
def wRoutes : Routes := [(strOf "/", [(strOf "X-Test", List.replicate 50 'a')])]

/-- Concrete options with `maxHeaderLineLength` 40 and overflow `warn`. -/
def wOptsWarn : ResolvedCspOptions :=
  ⟨true, true, true, false, true, CspMode.globalMode, 40, OverflowMode.warnOn⟩

/-- Witness for C8 at a concrete input. -/
theorem header_overflow_policy_witness :
    (wOptsWarn.overflow = OverflowMode.warnOn →
      buildDoneTail wRoutes wOptsWarn = Except.ok
        ([overflowMessage (strOf "/", strOf "X-Test", 60)
            wOptsWarn.maxHeaderLineLength
            (([] : List (Str × Str × Nat)).length + 1)],
          generateHeadersContent wRoutes)) ∧
    (wOptsWarn.overflow = OverflowMode.errorOn →
      buildDoneTail wRoutes wOptsWarn = Except.error
        (overflowMessage (strOf "/", strOf "X-Test", 60)
          wOptsWarn.maxHeaderLineLength
          (([] : List (Str × Str × Nat)).length + 1))) :=
  header_overflow_policy wRoutes wOptsWarn (strOf "/", strOf "X-Test", 60) []
    (by decide)

/-! ### `patchRoutesCsp` -/

/-- Report returned by `patchRoutesCsp`. -/
structure CspHashReport where
  inlineStyleHashes : Nat
  styleAttributeHashes : Nat
  inlineScriptHashes : Nat
  updatedCspHeaders : Nat
deriving DecidableEq

/-- Abstraction of the filesystem scans of the build directory: the results
of `collectCspHashesFromBuild` (global) and
`collectCspHashesByRouteFromBuild` (per-route map in insertion order, plus
totals). The scans themselves (recursive directory walk, HTML reading and
hashing) are provided primitives per the specification. -/
structure BuildScan where
  globalSources : CspHashSources
  byRoute : List (Str × CspHashSources)
  totals : CspHashSources

/-- `hasAnyCspSources` from the source. -/
def hasAnyCspSources (s : CspHashSources) : Bool :=
  !s.styleElementSources.isEmpty || !s.styleAttributeSources.isEmpty ||
  !s.scriptElementSources.isEmpty

/-- Trailing-slash normalization
`route === "/" ? "/" : route.replace(/\/+$/, "")`. -/
def normalizeTS (r : Str) : Str :=
  if r = strOf "/" then r else (r.reverse.dropWhile (fun c => c == '/')).reverse

/-- Specificity of a wildcard route: `route.replace(/\*/g, "").length`. -/
def specificityOf (route : Str) : Nat :=
  (route.filter fun c => !(c == '*')).length

/-- A compiled wildcard CSP route: pattern string, CSP header key, the CSP
value (captured from the headers object, which is never mutated), the
specificity and the original declaration index. -/
structure WildcardCspRoute where
  route : Str
  headerKey : Str
  value : Str
  specificity : Nat
  originalOrder : Nat
deriving DecidableEq

/-- Comparator of the wildcard sort: specificity descending, ties broken by
original order ascending. -/
def wildRel (a b : WildcardCspRoute) : Prop :=
  b.specificity < a.specificity ∨
    (a.specificity = b.specificity ∧ a.originalOrder ≤ b.originalOrder)

instance : DecidableRel wildRel := fun _ _ => instDecidableOr

instance : IsTotal WildcardCspRoute wildRel :=
  ⟨by intro a b; unfold wildRel; omega⟩

instance : IsTrans WildcardCspRoute wildRel :=
  ⟨by intro a b c; unfold wildRel; omega⟩

/-- Search for an occurrence of `seg` (scanning left to right, with
backtracking) whose remainder satisfies `cont` — the behaviour of one
non-final `.* seg` group of the compiled pattern. -/
def searchSeg (seg : Str) (cont : Str → Bool) : Str → Bool
  | [] => seg.isPrefixOf [] && cont []
  | c :: t =>
    (seg.isPrefixOf (c :: t) && cont ((c :: t).drop seg.length)) ||
    searchSeg seg cont t

/-- Matcher of the middle/end segments of a compiled wildcard pattern
`^seg0 .* seg1 .* ... segN$`: each `*` matches any substring, the literal
segments (regex-escaped in the source) match themselves. -/
def matchMid : List Str → Str → Bool
  | [], _ => true
  | [seg], s => seg.isSuffixOf s
  | seg :: seg2 :: rest, s => searchSeg seg (matchMid (seg2 :: rest)) s

/-- Test of the compiled anchored pattern against a built route. -/
def wildcardMatch (pattern s : Str) : Bool :=
  match splitOnChar '*' pattern with
  | [] => false
  | [seg] => s == seg
  | seg :: seg2 :: rest =>
    seg.isPrefixOf s && matchMid (seg2 :: rest) (s.drop seg.length)

/-- The CSP-bearing routes: (route, headers, headerKey) triples in
declaration order. -/
def cspRoutesOf (routes : Routes) : List (Str × Headers × Str) :=
  routes.filterMap fun rh =>
    (findHeaderKey rh.2 cspHeaderName).map fun k => (rh.1, rh.2, k)

/-- The exact (non-wildcard) CSP routes as (route, headerKey) pairs. -/
def exactRoutesOf (routes : Routes) : List (Str × Str) :=
  ((cspRoutesOf routes).filter fun rk => !rk.1.contains '*').map
    fun rk => (rk.1, rk.2.2)

/-- The wildcard CSP routes, compiled and sorted by specificity descending
with declaration order as tie-break (the unique sorted permutation the
source's comparator produces). -/
def wildcardRoutesOf (routes : Routes) : List WildcardCspRoute :=
  List.insertionSort wildRel
    ((((cspRoutesOf routes).filter fun rk => rk.1.contains '*').enum).map
      fun iw =>
        { route := iw.2.1, headerKey := iw.2.2.2,
          value := (mapGet iw.2.2.1 iw.2.2.2).getD [],
          specificity := specificityOf iw.2.1, originalOrder := iw.1 })

/-- Bucket lookup of the exact-route loop: direct `Map.get`, then the
trailing-slash-normalized fallback over the bucket entries in order. -/
def findRouteSources (byRoute : List (Str × CspHashSources)) (route : Str) :
    Option CspHashSources :=
  match alistGetSources byRoute route with
  | some s => some s
  | none =>
    (byRoute.find? fun rs => normalizeTS rs.1 == normalizeTS route).map
      Prod.snd
where
  alistGetSources : List (Str × CspHashSources) → Str → Option CspHashSources
    | [], _ => none
    | (a, b) :: r, k => if a = k then some b else alistGetSources r k

/-- One iteration of the exact-route patch loop (lines 552-577). The
impossible `none` branches (the route key and header key always exist)
skip. -/
def exactStep (byRoute : List (Str × CspHashSources))
    (o : ResolvedCspOptions) (acc : Routes × Nat) (rk : Str × Str) :
    Routes × Nat :=
  match findRouteSources byRoute rk.1 with
  | none => acc
  | some sources =>
    if hasAnyCspSources sources then
      match routesGet acc.1 rk.1 with
      | none => acc
      | some headers =>
        match mapGet headers rk.2 with
        | none => acc
        | some currentValue =>
          if patchCspValue currentValue sources o ≠ currentValue then
            (routesSet acc.1 rk.1
              (mapSet headers rk.2 (patchCspValue currentValue sources o)),
              acc.2 + 1)
          else acc
    else acc

/-- One iteration of the wildcard synthesis loop (lines 579-622). -/
def synthStep (wilds : List WildcardCspRoute) (o : ResolvedCspOptions)
    (acc : Routes × Nat) (bkt : Str × CspHashSources) : Routes × Nat :=
  if hasAnyCspSources bkt.2 then
    match acc.1.find? fun rh =>
        !rh.1.contains '*' && (normalizeTS rh.1 == normalizeTS bkt.1) with
    | some rh =>
      if (findHeaderKey rh.2 cspHeaderName).isSome then acc
      else
        match wilds.find? fun t => wildcardMatch t.route bkt.1 with
        | none => acc
        | some t =>
          if patchCspValue t.value bkt.2 o ≠ t.value then
            (routesSet acc.1 rh.1
              (mapSet rh.2 t.headerKey (patchCspValue t.value bkt.2 o)),
              acc.2 + 1)
          else acc
    | none =>
      match wilds.find? fun t => wildcardMatch t.route bkt.1 with
      | none => acc
      | some t =>
        if patchCspValue t.value bkt.2 o ≠ t.value then
          (routesSet acc.1 bkt.1
            (mapSet [] t.headerKey (patchCspValue t.value bkt.2 o)),
            acc.2 + 1)
        else acc
  else acc

/-- One iteration of the global-mode patch loop (lines 635-643). -/
def globalStep (sources : CspHashSources) (o : ResolvedCspOptions)
    (acc : Routes × Nat) (rk : Str × Str) : Routes × Nat :=
  match routesGet acc.1 rk.1 with
  | none => acc
  | some headers =>
    match mapGet headers rk.2 with
    | none => acc
    | some currentValue =>
      if patchCspValue currentValue sources o ≠ currentValue then
        (routesSet acc.1 rk.1
          (mapSet headers rk.2 (patchCspValue currentValue sources o)),
          acc.2 + 1)
      else acc

/-- `patchRoutesCsp` from the source, over the abstracted build scan: the
route map is threaded through the loops (the source mutates it in place)
and the final map and report are returned. -/
def patchRoutesCsp (routes : Routes) (scan : BuildScan)
    (o : ResolvedCspOptions) : Routes × CspHashReport :=
  if (cspRoutesOf routes).isEmpty then
    (routes, ⟨0, 0, 0, 0⟩)
  else
    match o.mode with
    | CspMode.routeMode =>
      let afterExact := (exactRoutesOf routes).foldl
        (exactStep scan.byRoute o) (routes, 0)
      let afterSynth := scan.byRoute.foldl
        (synthStep (wildcardRoutesOf routes) o) afterExact
      (afterSynth.1,
        ⟨scan.totals.inlineStyleHashes, scan.totals.styleAttributeHashes,
          scan.totals.inlineScriptHashes, afterSynth.2⟩)
    | CspMode.globalMode =>
      let afterAll := ((cspRoutesOf routes).map fun rk => (rk.1, rk.2.2)).foldl
        (globalStep scan.globalSources o) (routes, 0)
      (afterAll.1,
        ⟨scan.globalSources.inlineStyleHashes,
          scan.globalSources.styleAttributeHashes,
          scan.globalSources.inlineScriptHashes, afterAll.2⟩)

/-- C9: when no configured route carries a header case-insensitively named
`content-security-policy`, `patchRoutesCsp` returns an all-zero report and
the route map unchanged, for every possible build-scan result — in
particular its result does not depend on the scan, so no filesystem scan is
needed (the source returns before scanning). -/
theorem patchRoutesCsp_short_circuit (routes : Routes)
    (o : ResolvedCspOptions)
    (h : ∀ rh ∈ routes, findHeaderKey rh.2 cspHeaderName = none) :
    ∀ scan : BuildScan,
      patchRoutesCsp routes scan o = (routes, ⟨0, 0, 0, 0⟩) := by
  intro scan
  have hempty : cspRoutesOf routes = [] := by
    unfold cspRoutesOf
    rw [List.filterMap_eq_nil_iff]
    intro rh hrh
    rw [h rh hrh]
    rfl
  rw [patchRoutesCsp, if_pos (by rw [hempty]; rfl)]

/-- Witness for C9 at a concrete input. -/
theorem patchRoutesCsp_short_circuit_witness :
    patchRoutesCsp [(strOf "/", [(strOf "X-Test", strOf "v")])]
        ⟨⟨[], [], [], 0, 0, 0⟩, [(strOf "/", ⟨[sampleHash], [], [], 1, 0, 0⟩)],
          ⟨[], [], [], 0, 0, 0⟩⟩ wOpts =
      ([(strOf "/", [(strOf "X-Test", strOf "v")])], ⟨0, 0, 0, 0⟩) :=
  patchRoutesCsp_short_circuit _ wOpts (by decide) _

/-! ### Route-map lemmas for the wildcard reconciler -/

theorem routesGet_routesSet_self (m : Routes) (k : Str) (v : Headers) :
    routesGet (routesSet m k v) k = some v := by
  induction m with
  | nil => simp [routesSet, routesGet]
  | cons f r ih =>
    obtain ⟨a, b⟩ := f
    by_cases h : a = k
    · simp [routesSet, h, routesGet]
    · simp [routesSet, h, routesGet, ih]

theorem routesGet_routesSet_other (m : Routes) {k k' : Str} (v : Headers)
    (h : k' ≠ k) : routesGet (routesSet m k v) k' = routesGet m k' := by
  induction m with
  | nil => simp [routesSet, routesGet, Ne.symm h]
  | cons f r ih =>
    obtain ⟨a, b⟩ := f
    by_cases ha : a = k
    · subst ha
      simp [routesSet, routesGet, Ne.symm h]
    · by_cases ha' : a = k'
      · subst ha'
        simp [routesSet, ha, routesGet]
      · simp [routesSet, ha, routesGet, ha', ih]

theorem routesSet_keys_of_mem {m : Routes} {k : Str} (v : Headers)
    (hk : k ∈ m.map Prod.fst) :
    (routesSet m k v).map Prod.fst = m.map Prod.fst := by
  induction m with
  | nil => simp at hk
  | cons f r ih =>
    obtain ⟨a, b⟩ := f
    by_cases h : a = k
    · simp [routesSet, h]
    · rw [List.map_cons, List.mem_cons] at hk
      rcases hk with hk | hk
      · exact absurd hk.symm h
      · simp [routesSet, h, ih hk]

theorem mem_keys_routesSet {m : Routes} {k k' : Str} {v : Headers}
    (h : k' ∈ (routesSet m k v).map Prod.fst) :
    k' ∈ m.map Prod.fst ∨ k' = k := by
  induction m with
  | nil =>
    simp [routesSet] at h
    exact Or.inr h
  | cons f r ih =>
    obtain ⟨a, b⟩ := f
    by_cases ha : a = k
    · rw [routesSet, if_pos ha] at h
      simp at h
      rcases h with rfl | h
      · exact Or.inl (by simp)
      · exact Or.inl (by simp [h])
    · rw [routesSet, if_neg ha] at h
      simp at h
      rcases h with rfl | h
      · exact Or.inl (by simp)
      · rcases ih (by simpa using h) with h1 | h1
        · exact Or.inl (by simp at h1 ⊢; tauto)
        · exact Or.inr h1

theorem routesGet_first {m : Routes} (hnd : (m.map Prod.fst).Nodup) :
    ∀ e ∈ m, routesGet m e.1 = some e.2 := by
  induction m with
  | nil => intro e he; simp at he
  | cons f r ih =>
    intro e he
    obtain ⟨a, b⟩ := f
    rw [List.map_cons, List.nodup_cons] at hnd
    rcases List.mem_cons.1 he with rfl | he'
    · simp [routesGet]
    · have ha : a ≠ e.1 := by
        intro hx
        exact hnd.1 (hx ▸ List.mem_map.2 ⟨e, he', rfl⟩)
      simp only [routesGet, if_neg ha]
      exact ih hnd.2 e he'

theorem routesGet_some_mem_keys {m : Routes} {k : Str} {v : Headers}
    (h : routesGet m k = some v) : k ∈ m.map Prod.fst := by
  induction m with
  | nil => simp [routesGet] at h
  | cons f r ih =>
    obtain ⟨a, b⟩ := f
    by_cases ha : a = k
    · simp [ha]
    · rw [routesGet, if_neg ha] at h
      simp [ih h]

/-! ### Step case analyses -/

theorem exactStep_cases (byRoute : List (Str × CspHashSources))
    (o : ResolvedCspOptions) (acc : Routes × Nat) (rk : Str × Str) :
    exactStep byRoute o acc rk = acc ∨
    ∃ hdrs, exactStep byRoute o acc rk = (routesSet acc.1 rk.1 hdrs, acc.2 + 1) ∧
      rk.1 ∈ acc.1.map Prod.fst := by
  unfold exactStep
  cases hfs : findRouteSources byRoute rk.1 with
  | none => exact Or.inl rfl
  | some sources =>
    dsimp only
    by_cases hany : hasAnyCspSources sources = true
    · rw [if_pos hany]
      cases hget : routesGet acc.1 rk.1 with
      | none => exact Or.inl rfl
      | some headers =>
        dsimp only
        cases hgv : mapGet headers rk.2 with
        | none => exact Or.inl rfl
        | some currentValue =>
          dsimp only
          by_cases hch : patchCspValue currentValue sources o ≠ currentValue
          · rw [if_pos hch]
            exact Or.inr ⟨_, rfl, routesGet_some_mem_keys hget⟩
          · rw [if_neg hch]
            exact Or.inl rfl
    · rw [if_neg hany]
      exact Or.inl rfl

theorem synthStep_cases (wilds : List WildcardCspRoute)
    (o : ResolvedCspOptions) (acc : Routes × Nat)
    (bkt : Str × CspHashSources) :
    synthStep wilds o acc bkt = acc ∨
    ∃ key hdrs, synthStep wilds o acc bkt =
        (routesSet acc.1 key hdrs, acc.2 + 1) ∧
      normalizeTS key = normalizeTS bkt.1 ∧
      (key.contains '*' = false ∨ key = bkt.1) := by
  unfold synthStep
  by_cases hany : hasAnyCspSources bkt.2 = true
  · rw [if_pos hany]
    cases hfind : acc.1.find? (fun rh =>
        !rh.1.contains '*' && (normalizeTS rh.1 == normalizeTS bkt.1)) with
    | some rh =>
      dsimp only
      have hpred := List.find?_some hfind
      rw [Bool.and_eq_true] at hpred
      have hrhstar : rh.1.contains '*' = false := by
        have := hpred.1
        simpa using this
      have hrhnorm : normalizeTS rh.1 = normalizeTS bkt.1 := by
        have := hpred.2
        simpa using this
      by_cases hkk : (findHeaderKey rh.2 cspHeaderName).isSome = true
      · rw [if_pos hkk]
        exact Or.inl rfl
      · rw [if_neg hkk]
        cases htm : wilds.find? (fun t => wildcardMatch t.route bkt.1) with
        | none => exact Or.inl rfl
        | some t =>
          dsimp only
          by_cases hch : patchCspValue t.value bkt.2 o ≠ t.value
          · rw [if_pos hch]
            exact Or.inr ⟨rh.1, _, rfl, hrhnorm, Or.inl hrhstar⟩
          · rw [if_neg hch]
            exact Or.inl rfl
    | none =>
      dsimp only
      cases htm : wilds.find? (fun t => wildcardMatch t.route bkt.1) with
      | none => exact Or.inl rfl
      | some t =>
        dsimp only
        by_cases hch : patchCspValue t.value bkt.2 o ≠ t.value
        · rw [if_pos hch]
          exact Or.inr ⟨bkt.1, _, rfl, rfl, Or.inr rfl⟩
        · rw [if_neg hch]
          exact Or.inl rfl
  · rw [if_neg hany]
    exact Or.inl rfl

/-! ### Fold preservation lemmas -/

theorem exactFold_keys (byRoute : List (Str × CspHashSources))
    (o : ResolvedCspOptions) :
    ∀ (exacts : List (Str × Str)) (acc : Routes × Nat),
      (exacts.foldl (exactStep byRoute o) acc).1.map Prod.fst =
        acc.1.map Prod.fst := by
  intro exacts
  induction exacts with
  | nil => intro acc; rfl
  | cons rk rest ih =>
    intro acc
    rw [List.foldl_cons]
    rcases exactStep_cases byRoute o acc rk with hc | ⟨hdrs, hc, hmem⟩
    · rw [hc, ih]
    · rw [hc, ih]
      dsimp only
      exact routesSet_keys_of_mem _ hmem

theorem exactFold_wild (byRoute : List (Str × CspHashSources))
    (o : ResolvedCspOptions) :
    ∀ (exacts : List (Str × Str)),
      (∀ rk ∈ exacts, rk.1.contains '*' = false) →
      ∀ (acc : Routes × Nat) (k : Str), k.contains '*' = true →
      routesGet (exacts.foldl (exactStep byRoute o) acc).1 k =
        routesGet acc.1 k := by
  intro exacts
  induction exacts with
  | nil => intro _ acc k _; rfl
  | cons rk rest ih =>
    intro hstar acc k hk
    rw [List.foldl_cons]
    have hrest := ih (fun x hx => hstar x (List.mem_cons_of_mem _ hx))
    rcases exactStep_cases byRoute o acc rk with hc | ⟨hdrs, hc, hmem⟩
    · rw [hc, hrest _ _ hk]
    · rw [hc, hrest _ _ hk]
      dsimp only
      refine routesGet_routesSet_other _ _ fun hkk => ?_
      rw [hkk] at hk
      rw [hstar rk (by simp)] at hk
      exact absurd hk (by simp)

theorem synthFold_pres (wilds : List WildcardCspRoute)
    (o : ResolvedCspOptions) (r : Str) :
    ∀ (buckets : List (Str × CspHashSources)),
      (∀ bkt ∈ buckets, normalizeTS bkt.1 ≠ normalizeTS r ∧
        bkt.1.contains '*' = false) →
      ∀ (acc : Routes × Nat),
      routesGet (buckets.foldl (synthStep wilds o) acc).1 r =
          routesGet acc.1 r ∧
      (∀ k, k.contains '*' = true →
        routesGet (buckets.foldl (synthStep wilds o) acc).1 k =
          routesGet acc.1 k) ∧
      (∀ k' ∈ (buckets.foldl (synthStep wilds o) acc).1.map Prod.fst,
        k' ∈ acc.1.map Prod.fst ∨
          ∃ bkt ∈ buckets, normalizeTS k' = normalizeTS bkt.1) := by
  intro buckets
  induction buckets with
  | nil => intro _ acc; exact ⟨rfl, fun _ _ => rfl, fun k' hk' => Or.inl hk'⟩
  | cons bkt rest ih =>
    intro hb acc
    rw [List.foldl_cons]
    obtain ⟨hbn, hbs⟩ := hb bkt (by simp)
    have hrest := ih (fun x hx => hb x (List.mem_cons_of_mem _ hx))
    rcases synthStep_cases wilds o acc bkt with hc | ⟨key, hdrs, hc, hknorm, hkstar⟩
    · rw [hc]
      obtain ⟨p1, p2, p3⟩ := hrest acc
      refine ⟨p1, p2, fun k' hk' => ?_⟩
      rcases p3 k' hk' with h | ⟨b2, hb2, hn2⟩
      · exact Or.inl h
      · exact Or.inr ⟨b2, List.mem_cons_of_mem _ hb2, hn2⟩
    · rw [hc]
      obtain ⟨p1, p2, p3⟩ := hrest (routesSet acc.1 key hdrs, acc.2 + 1)
      have hkey_ne_r : key ≠ r := by
        intro hx
        rw [hx] at hknorm
        exact hbn hknorm.symm
      refine ⟨?_, ?_, ?_⟩
      · rw [p1]
        dsimp only
        exact routesGet_routesSet_other _ _ (Ne.symm hkey_ne_r)
      · intro k hk
        rw [p2 k hk]
        dsimp only
        refine routesGet_routesSet_other _ _ fun hkk => ?_
        rcases hkstar with hks | hks
        · rw [hkk, hks] at hk
          exact absurd hk (by simp)
        · rw [hkk, hks, hbs] at hk
          exact absurd hk (by simp)
      · intro k' hk'
        rcases p3 k' hk' with h | ⟨b2, hb2, hn2⟩
        · rcases mem_keys_routesSet h with h1 | h1
          · exact Or.inl h1
          · exact Or.inr ⟨bkt, by simp, by rw [h1]; exact hknorm⟩
        · exact Or.inr ⟨b2, List.mem_cons_of_mem _ hb2, hn2⟩

/-! ### Sorted-find lemma for the wildcard templates -/

theorem wildRel_refl (a : WildcardCspRoute) : wildRel a a := by
  unfold wildRel
  omega

theorem find_sorted_rel :
    ∀ {l : List WildcardCspRoute} {p : WildcardCspRoute → Bool}
      {t : WildcardCspRoute},
      List.Sorted wildRel l → l.find? p = some t →
      ∀ t2 ∈ l, p t2 = true → wildRel t t2 := by
  intro l
  induction l with
  | nil => intro p t _ hf; simp at hf
  | cons h rest ih =>
    intro p t hs hf t2 ht2 hp2
    rw [List.sorted_cons] at hs
    by_cases hph : p h = true
    · rw [List.find?_cons_of_pos _ hph] at hf
      have ht : t = h := by
        injection hf with hf
        exact hf.symm
      subst ht
      rcases List.mem_cons.1 ht2 with rfl | ht2'
      · exact wildRel_refl _
      · exact hs.1 t2 ht2'
    · rw [List.find?_cons_of_neg _ (by simpa using hph)] at hf
      rcases List.mem_cons.1 ht2 with rfl | ht2'
      · exact absurd hp2 hph
      · exact ih hs.2 hf t2 ht2' hp2

theorem synthStep_synth (wilds : List WildcardCspRoute)
    (o : ResolvedCspOptions) (acc : Routes × Nat)
    (bkt : Str × CspHashSources) (t : WildcardCspRoute)
    (hany : hasAnyCspSources bkt.2 = true)
    (hfind : acc.1.find? (fun rh =>
      !rh.1.contains '*' && (normalizeTS rh.1 == normalizeTS bkt.1)) = none)
    (ht : wilds.find? (fun t2 => wildcardMatch t2.route bkt.1) = some t)
    (hch : patchCspValue t.value bkt.2 o ≠ t.value) :
    synthStep wilds o acc bkt =
      (routesSet acc.1 bkt.1 [(t.headerKey, patchCspValue t.value bkt.2 o)],
        acc.2 + 1) := by
  unfold synthStep
  rw [if_pos hany, hfind]
  dsimp only
  rw [ht]
  dsimp only
  rw [if_pos hch]
  rfl

theorem exactRoutesOf_star {routes : Routes} :
    ∀ rk ∈ exactRoutesOf routes, rk.1.contains '*' = false := by
  intro rk hrk
  unfold exactRoutesOf at hrk
  rw [List.mem_map] at hrk
  obtain ⟨x, hx, rfl⟩ := hrk
  rw [List.mem_filter] at hx
  simpa using hx.2

/-- C5 (amended): in route mode, a built route with a non-empty hash bucket
gets a new exact entry keyed by the built route, holding the template's
header key with the patched value, provided that: no configured non-wildcard
route normalizes (under trailing-slash normalization) to the built route at
all — if one exists, even without a CSP header, the code reuses that entry
and writes the patched header under the configured route's own key, not the
built route's (see `synth_reuse_under_config_key`); no other scanned bucket
normalizes to the same route — an earlier colliding synthesis blocks later
ones (see `synth_blocked_by_colliding_bucket`); a wildcard template matches;
and patching the most specific matching template's value with the bucket
actually changes it. Wildcard entries are never rewritten, and the chosen
template is the matching one of greatest specificity, ties broken by first
declaration. Route-map and bucket-map keys are distinct (both are `Map`s in
the source) and built routes, derived from file paths by
`mapHtmlFileToRoute`, are taken star-free. -/
theorem wildcard_synthesis_amended (routes : Routes) (scan : BuildScan)
    (o : ResolvedCspOptions) (r : Str) (b : CspHashSources)
    (t : WildcardCspRoute)
    (hnd : (routes.map Prod.fst).Nodup)
    (hmode : o.mode = CspMode.routeMode)
    (hmem : (r, b) ∈ scan.byRoute)
    (hbnd : (scan.byRoute.map Prod.fst).Nodup)
    (hb : hasAnyCspSources b = true)
    (hstar : ∀ bkt ∈ scan.byRoute, bkt.1.contains '*' = false)
    (huniq : ∀ bkt ∈ scan.byRoute,
      normalizeTS bkt.1 = normalizeTS r → bkt.1 = r)
    (hnoexact : ∀ rh ∈ routes, rh.1.contains '*' = false →
      normalizeTS rh.1 ≠ normalizeTS r)
    (htmpl : (wildcardRoutesOf routes).find?
      (fun t2 => wildcardMatch t2.route r) = some t)
    (hchange : patchCspValue t.value b o ≠ t.value) :
    routesGet (patchRoutesCsp routes scan o).1 r =
        some [(t.headerKey, patchCspValue t.value b o)] ∧
    (∀ rh ∈ routes, rh.1.contains '*' = true →
      routesGet (patchRoutesCsp routes scan o).1 rh.1 = some rh.2) ∧
    wildcardMatch t.route r = true ∧
    (∀ t2 ∈ wildcardRoutesOf routes,
      wildcardMatch t2.route r = true → wildRel t t2) := by
  have htmem : t ∈ wildcardRoutesOf routes := List.mem_of_find?_eq_some htmpl
  have hcne : (cspRoutesOf routes).isEmpty = false := by
    cases hx : cspRoutesOf routes with
    | cons _ _ => rfl
    | nil =>
      exfalso
      have : wildcardRoutesOf routes = [] := by
        unfold wildcardRoutesOf
        rw [hx]
        rfl
      rw [this] at htmem
      simp at htmem
  obtain ⟨pre, post, hsplit⟩ := List.append_of_mem hmem
  have hknd := hbnd
  rw [hsplit, List.map_append, List.map_cons, List.nodup_append] at hknd
  obtain ⟨hnd_pre, hnd_cons, hdisj⟩ := hknd
  have hr_pre : (r, b).1 ∉ pre.map Prod.fst :=
    fun hx => hdisj hx (List.mem_cons_self _ _)
  have hr_post : (r, b).1 ∉ post.map Prod.fst := by
    rw [List.nodup_cons] at hnd_cons
    exact hnd_cons.1
  have hr_star : r.contains '*' = false := hstar (r, b) hmem
  have hpre_facts : ∀ bkt ∈ pre,
      normalizeTS bkt.1 ≠ normalizeTS r ∧ bkt.1.contains '*' = false := by
    intro bkt hbkt
    have hbmem : bkt ∈ scan.byRoute := by
      rw [hsplit]
      exact List.mem_append.2 (Or.inl hbkt)
    refine ⟨fun hn => ?_, hstar bkt hbmem⟩
    have := huniq bkt hbmem hn
    exact hr_pre (this ▸ List.mem_map.2 ⟨bkt, hbkt, rfl⟩)
  have hpost_facts : ∀ bkt ∈ post,
      normalizeTS bkt.1 ≠ normalizeTS r ∧ bkt.1.contains '*' = false := by
    intro bkt hbkt
    have hbmem : bkt ∈ scan.byRoute := by
      rw [hsplit]
      exact List.mem_append.2 (Or.inr (List.mem_cons_of_mem _ hbkt))
    refine ⟨fun hn => ?_, hstar bkt hbmem⟩
    have := huniq bkt hbmem hn
    exact hr_post (this ▸ List.mem_map.2 ⟨bkt, hbkt, rfl⟩)
  -- state after the exact-route loop
  have hkeys0 : ((exactRoutesOf routes).foldl (exactStep scan.byRoute o)
      (routes, 0)).1.map Prod.fst = routes.map Prod.fst :=
    exactFold_keys scan.byRoute o (exactRoutesOf routes) (routes, 0)
  -- state after the pre buckets
  obtain ⟨hp1, hp2, hp3⟩ := synthFold_pres (wildcardRoutesOf routes) o r pre
    hpre_facts ((exactRoutesOf routes).foldl (exactStep scan.byRoute o)
      (routes, 0))
  -- the middle bucket synthesizes the entry
  have hfindnone : (pre.foldl (synthStep (wildcardRoutesOf routes) o)
      ((exactRoutesOf routes).foldl (exactStep scan.byRoute o)
        (routes, 0))).1.find? (fun rh =>
          !rh.1.contains '*' && (normalizeTS rh.1 == normalizeTS r)) =
      none := by
    rw [List.find?_eq_none]
    intro rh hrh
    have hkmem : rh.1 ∈ (pre.foldl (synthStep (wildcardRoutesOf routes) o)
        ((exactRoutesOf routes).foldl (exactStep scan.byRoute o)
          (routes, 0))).1.map Prod.fst := List.mem_map.2 ⟨rh, hrh, rfl⟩
    rcases hp3 rh.1 hkmem with hk | ⟨bkt2, hbkt2, hn2⟩
    · rw [hkeys0] at hk
      rw [List.mem_map] at hk
      obtain ⟨rh0, hrh0, hfst⟩ := hk
      cases hcs : rh0.1.contains '*' with
      | true =>
        simp only [Bool.and_eq_true, Bool.not_eq_true']
        rw [← hfst, hcs]
        simp
      | false =>
        have hne := hnoexact rh0 hrh0 hcs
        simp only [Bool.and_eq_true, Bool.not_eq_true']
        rw [← hfst]
        intro hcon
        have := hcon.2
        rw [beq_iff_eq] at this
        exact hne this
    · simp only [Bool.and_eq_true, Bool.not_eq_true']
      intro hcon
      have := hcon.2
      rw [beq_iff_eq] at this
      exact (hpre_facts bkt2 hbkt2).1 (hn2 ▸ this)
  have hmid : synthStep (wildcardRoutesOf routes) o
      (pre.foldl (synthStep (wildcardRoutesOf routes) o)
        ((exactRoutesOf routes).foldl (exactStep scan.byRoute o)
          (routes, 0))) (r, b) =
      (routesSet (pre.foldl (synthStep (wildcardRoutesOf routes) o)
          ((exactRoutesOf routes).foldl (exactStep scan.byRoute o)
            (routes, 0))).1 r
        [(t.headerKey, patchCspValue t.value b o)],
        (pre.foldl (synthStep (wildcardRoutesOf routes) o)
          ((exactRoutesOf routes).foldl (exactStep scan.byRoute o)
            (routes, 0))).2 + 1) := by
    exact synthStep_synth _ _ _ (r, b) t hb hfindnone htmpl hchange
  -- post buckets preserve the synthesized entry
  obtain ⟨hq1, hq2, _⟩ := synthFold_pres (wildcardRoutesOf routes) o r post
    hpost_facts
    (routesSet (pre.foldl (synthStep (wildcardRoutesOf routes) o)
        ((exactRoutesOf routes).foldl (exactStep scan.byRoute o)
          (routes, 0))).1 r
      [(t.headerKey, patchCspValue t.value b o)],
      (pre.foldl (synthStep (wildcardRoutesOf routes) o)
        ((exactRoutesOf routes).foldl (exactStep scan.byRoute o)
          (routes, 0))).2 + 1)
  have hfinal : (patchRoutesCsp routes scan o).1 =
      (post.foldl (synthStep (wildcardRoutesOf routes) o)
        (routesSet (pre.foldl (synthStep (wildcardRoutesOf routes) o)
            ((exactRoutesOf routes).foldl (exactStep scan.byRoute o)
              (routes, 0))).1 r
          [(t.headerKey, patchCspValue t.value b o)],
          (pre.foldl (synthStep (wildcardRoutesOf routes) o)
            ((exactRoutesOf routes).foldl (exactStep scan.byRoute o)
              (routes, 0))).2 + 1)).1 := by
    rw [patchRoutesCsp, if_neg (by rw [hcne]; simp), hmode]
    dsimp only
    nth_rewrite 2 [hsplit]
    rw [List.foldl_append, List.foldl_cons, hmid]
  refine ⟨?_, ?_, ?_, ?_⟩
  · rw [hfinal, hq1]
    dsimp only
    exact routesGet_routesSet_self _ _ _
  · intro rh hrh hwild
    rw [hfinal, hq2 rh.1 hwild]
    dsimp only
    rw [routesGet_routesSet_other _ _ (fun hx => by
      rw [hx, hr_star] at hwild
      exact absurd hwild (by simp))]
    rw [hp2 rh.1 hwild,
      exactFold_wild scan.byRoute o (exactRoutesOf routes)
        exactRoutesOf_star (routes, 0) rh.1 hwild]
    exact routesGet_first hnd rh hrh
  · have := List.find?_some htmpl
    simpa using this
  · intro t2 ht2 hm2
    have hsorted : List.Sorted wildRel (wildcardRoutesOf routes) := by
      unfold wildcardRoutesOf
      exact List.sorted_insertionSort wildRel _
    exact find_sorted_rel hsorted htmpl t2 ht2 (by simpa using hm2)

/-- Empty hash bucket. -/
def emptyBucket : CspHashSources := ⟨[], [], [], 0, 0, 0⟩

/-- Counterexample wildcard template value: its `style-src` already contains
the discovered hash, so patching it is a no-op. -/
def cexVal : Str := styleSrcName ++ [' '] ++ selfTok ++ [' '] ++ sampleHash

/-- Counterexample route map: a single wildcard CSP route. -/
def cexRoutes : Routes := [(strOf "/b/*", [(cspHeaderName, cexVal)])]

/-- Counterexample hash bucket: one discovered inline-style hash. -/
def cexBucket : CspHashSources := ⟨[sampleHash], [], [], 1, 0, 0⟩

/-- Counterexample build scan: one built route `/b/x` with a non-empty
bucket. -/
def cexScan : BuildScan := ⟨emptyBucket, [(strOf "/b/x", cexBucket)], cexBucket⟩

/-- Counterexample options: route mode, all hash categories enabled. -/
def cexOpts : ResolvedCspOptions :=
  ⟨true, true, true, false, true, CspMode.routeMode, 2000, OverflowMode.errorOn⟩

/-- C5 counterexample: built route `/b/x` has a non-empty hash bucket, no
configured exact route matches it under trailing-slash normalization, and it
matches the wildcard template `/b/*`; yet no exact entry keyed `/b/x` is
synthesized (and the update count stays 0), because patching the template's
value with the bucket is a no-op — the code skips synthesis in that case,
contrary to the claim that a new entry is always synthesized. -/
theorem wildcard_synthesis_cex :
    hasAnyCspSources cexBucket = true ∧
    wildcardMatch (strOf "/b/*") (strOf "/b/x") = true ∧
    (∀ rh ∈ cexRoutes, rh.1.contains '*' = false →
      normalizeTS rh.1 ≠ normalizeTS (strOf "/b/x")) ∧
    routesGet (patchRoutesCsp cexRoutes cexScan cexOpts).1 (strOf "/b/x") =
      none ∧
    (patchRoutesCsp cexRoutes cexScan cexOpts).2.updatedCspHeaders = 0 := by
  decide

/-- Synthesis-scenario template value: `style-src 'self'`, which the bucket's
hash does change. -/
def sVal : Str := styleSrcName ++ [' '] ++ selfTok

/-- Synthesis-scenario route map: a single wildcard CSP route. -/
def sRoutes : Routes := [(strOf "/b/*", [(cspHeaderName, sVal)])]

/-- The wildcard template record produced for `sRoutes`. -/
def sTmpl : WildcardCspRoute := ⟨strOf "/b/*", cspHeaderName, sVal, 3, 0⟩

theorem wildcard_synthesis_amended_witness :
    routesGet (patchRoutesCsp sRoutes cexScan cexOpts).1 (strOf "/b/x") =
      some [(sTmpl.headerKey, patchCspValue sTmpl.value cexBucket cexOpts)] ∧
    (∀ rh ∈ sRoutes, rh.1.contains '*' = true →
      routesGet (patchRoutesCsp sRoutes cexScan cexOpts).1 rh.1 =
        some rh.2) ∧
    wildcardMatch sTmpl.route (strOf "/b/x") = true ∧
    (∀ t2 ∈ wildcardRoutesOf sRoutes,
      wildcardMatch t2.route (strOf "/b/x") = true → wildRel sTmpl t2) :=
  wildcard_synthesis_amended sRoutes cexScan cexOpts (strOf "/b/x") cexBucket
    sTmpl (by decide) (by decide) (by decide) (by decide) (by decide)
    (by decide) (by decide) (by decide) (by decide) (by decide)

/-- Reuse-scenario route map: the wildcard CSP route plus a configured
exact route `/b/x/` that carries no CSP header. -/
def reuseRoutes : Routes :=
  [(strOf "/b/*", [(cspHeaderName, sVal)]),
    (strOf "/b/x/", [(strOf "X-Other", strOf "1")])]

/-- When a configured exact route (`/b/x/`) normalizes to the built route
(`/b/x`) but carries no CSP header, the code reuses that entry: the patched
header is written under the configured key `/b/x/`, and no entry keyed by
the built route `/b/x` is created. This is why `wildcard_synthesis_amended`
requires that no configured non-wildcard route normalize to the built route
at all, not merely that none carry a CSP header. -/
theorem synth_reuse_under_config_key :
    findHeaderKey [(strOf "X-Other", strOf "1")] cspHeaderName = none ∧
    routesGet (patchRoutesCsp reuseRoutes cexScan cexOpts).1 (strOf "/b/x") =
      none ∧
    routesGet (patchRoutesCsp reuseRoutes cexScan cexOpts).1
        (strOf "/b/x/") =
      some [(strOf "X-Other", strOf "1"),
        (cspHeaderName, patchCspValue sVal cexBucket cexOpts)] := by
  decide

/-- Collision-scenario build scan: two built routes `/b/x` and `/b/x/` that
normalize to the same key, each with a non-empty bucket. -/
def collideScan : BuildScan :=
  ⟨emptyBucket,
    [(strOf "/b/x", cexBucket), (strOf "/b/x/", cexBucket)], cexBucket⟩

/-- When two scanned buckets normalize to the same route, the entry
synthesized for the first blocks the second: `/b/x/` matches the wildcard
and has a non-empty bucket, yet gets no entry of its own (the update count
stays 1). This is why `wildcard_synthesis_amended` requires that no other
bucket normalize to the built route. -/
theorem synth_blocked_by_colliding_bucket :
    wildcardMatch (strOf "/b/*") (strOf "/b/x/") = true ∧
    hasAnyCspSources cexBucket = true ∧
    routesGet (patchRoutesCsp sRoutes collideScan cexOpts).1
        (strOf "/b/x/") = none ∧
    (patchRoutesCsp sRoutes collideScan cexOpts).2.updatedCspHeaders = 1 := by
  decide

end CfHeaders
